import Mathlib

/-! gemma.cpp: compensated dot product, condition number, Adam update

A shallow embedding of `ops/dot-inl.h` and of the contract of
`backprop/optimizer.h`, in two layers that share the loops and the `size_t`
arithmetic.

The exact layer (namespace `Gemma`).

* A `float`/`double` value is a rational number; `hn::Add`, `hn::Mul`,
  `hn::Abs` and the scalar `*`, `+` are the exact operations on `ℚ`.  The
  error-free transformations `TwoSums` / `TwoProducts` of `ops/fp_arith-inl.h`
  (not part of the sources at hand) are parameters, collected in `FpArith`;
  theorems that need them to be error free say so in a hypothesis.
* `+infinity` is `⊤ : WithTop ℚ`.  NaN, overflow and signed zeros are not
  represented.  This layer carries the statements that are conditional on exact
  arithmetic or that compare two runs of the same operations.
* A division is only defined for a non-zero divisor (`fdiv`).

The floating-point layer (namespace `Gemma.Ieee`).

* A datum is an `Ieee.Fp`: a finite rational, an infinity or NaN.  `Ieee.round f`
  rounds an exact result to nearest, ties to even, in the format `f` (`binary32` for
  `float`, `binary64` for `double`), with subnormals and with overflow to an infinity;
  `hn::Add`, `hn::Mul` and the `double` product and quotient round their exact result.
  The sign of a zero is not represented.
* `TwoSums`, `TwoProducts` and `WidenMulPairwiseAdd` are parameters, collected in
  `Ieee.Arith`; `Ieee.binary32Arith` is the instance used for concrete runs.
* Which rationals a format holds is said by `IsBF16` and `IsF32`: a significand of 8 or 24
  bits and the exponent range of binary32.

Both layers.

* A vector of `N` lanes is a function on `Fin N`; a pointer is a function on `ℕ`, from
  the element index to the decompressed value.
* A `size_t` value is a natural number below `sizeMod = 2 ^ 64`; `addSz`, `subSz`
  and `mulSz` are the wrapping operations. Indexing a pointer does not wrap.
* Loops carry fuel; running out of fuel is the fault `outOfFuel`, so a theorem
  that exhibits a returned value also shows that the loop terminated.
-/

namespace Gemma

/-! ## `size_t` -/

/-- Number of values of `size_t` (64-bit targets). -/
def sizeMod : ℕ := 2 ^ 64

/-- `a + b` in `size_t`. -/
def addSz (a b : ℕ) : ℕ := (a + b) % sizeMod

/-- `a - b` in `size_t`: wraps around below zero. -/
def subSz (a b : ℕ) : ℕ := (a + (sizeMod - b % sizeMod)) % sizeMod

/-- `a * b` in `size_t`. -/
def mulSz (a b : ℕ) : ℕ := (a * b) % sizeMod

/-! ## Arithmetic -/

/-- Vector of `N` float lanes (`hn::Vec<hn::ScalableTag<float>>`). -/
abbrev VF (N : ℕ) := Fin N → ℚ

/-- Vector of bf16 lanes: twice as many lanes as the float vector of the same width. -/
abbrev VBF (N : ℕ) := Fin (2 * N) → ℚ

/-- The primitives of `ops/fp_arith-inl.h` and of Highway that `dot-inl.h` calls and whose
bodies are not in the sources at hand. `TwoSum a b` returns the rounded sum and its error,
`TwoProduct a b` the rounded product and its error (one lane each), and
`WidenMulPairwiseAdd` maps two bf16 vectors to one float vector. -/
structure FpArith where
  TwoSum : ℚ → ℚ → ℚ × ℚ
  TwoProduct : ℚ → ℚ → ℚ × ℚ
  WidenMulPairwiseAdd : (N : ℕ) → VBF N → VBF N → VF N

/-- The two-sum is an error-free transformation: rounded sum plus error is the exact sum. -/
def FpArith.SumErrorFree (A : FpArith) : Prop :=
  ∀ a b : ℚ, (A.TwoSum a b).1 + (A.TwoSum a b).2 = a + b

/-- The two-product is an error-free transformation: rounded product plus error is the
exact product. -/
def FpArith.ProdErrorFree (A : FpArith) : Prop :=
  ∀ a b : ℚ, (A.TwoProduct a b).1 + (A.TwoProduct a b).2 = a * b

/-- Adding zero is exact: the sum is the other operand and the error is zero. -/
def FpArith.ZeroExact (A : FpArith) : Prop :=
  ∀ a : ℚ, A.TwoSum a 0 = (a, 0)

/-- Exact arithmetic: nothing is rounded, every error term is zero. -/
def exactArith : FpArith where
  TwoSum a b := (a + b, 0)
  TwoProduct a b := (a * b, 0)
  WidenMulPairwiseAdd N w v := fun l =>
    w ⟨2 * l.val, by omega⟩ * v ⟨2 * l.val, by omega⟩
      + w ⟨2 * l.val + 1, by omega⟩ * v ⟨2 * l.val + 1, by omega⟩

/-- A toy rounding arithmetic whose representable numbers are the integers: results are
rounded down and the error term holds what was cut off. -/
def floorArith : FpArith where
  TwoSum a b := (((⌊a + b⌋ : ℤ) : ℚ), a + b - ((⌊a + b⌋ : ℤ) : ℚ))
  TwoProduct a b := (((⌊a * b⌋ : ℤ) : ℚ), a * b - ((⌊a * b⌋ : ℤ) : ℚ))
  WidenMulPairwiseAdd N w v := fun l =>
    ((⌊w ⟨2 * l.val, by omega⟩ * v ⟨2 * l.val, by omega⟩
      + w ⟨2 * l.val + 1, by omega⟩ * v ⟨2 * l.val + 1, by omega⟩⌋ : ℤ) : ℚ)

/-- `hn::Zero(df)`. -/
def Zero (N : ℕ) : VF N := fun _ => 0

/-- `hn::Add(a, b)` in exact arithmetic (`Ieee.Add` is the one that rounds). -/
def Add {N : ℕ} (a b : VF N) : VF N := fun l => a l + b l

/-- `hn::Mul(a, b)` in exact arithmetic (`Ieee.Mul` is the one that rounds and
overflows). -/
def Mul {N : ℕ} (a b : VF N) : VF N := fun l => a l * b l

/-- `hn::Abs(a)`. -/
def Abs {N : ℕ} (a : VF N) : VF N := fun l => |a l|

/-- `hn::Load(df, p + pos)`: the `N` consecutive values starting at `pos`. -/
def Load (N : ℕ) (p : ℕ → ℚ) (pos : ℕ) : VF N := fun l => p (pos + l.val)

/-- Sum of all lanes of a vector. -/
def ReduceSum {N : ℕ} (a : VF N) : ℚ := ∑ l : Fin N, a l

/-- `TwoSums(df, a, b, err)`: the lane-wise two-sum; returns `(sum, err)`. -/
def TwoSums (A : FpArith) {N : ℕ} (a b : VF N) : VF N × VF N :=
  (fun l => (A.TwoSum (a l) (b l)).1, fun l => (A.TwoSum (a l) (b l)).2)

/-- `TwoProducts(df, a, b, err)`: the lane-wise two-product; returns `(prod, err)`. -/
def TwoProducts (A : FpArith) {N : ℕ} (a b : VF N) : VF N × VF N :=
  (fun l => (A.TwoProduct (a l) (b l)).1, fun l => (A.TwoProduct (a l) (b l)).2)

/-- Division of floats, defined for a non-zero divisor only. -/
def fdiv (a b : ℚ) : Option ℚ := if b = 0 then none else some (a / b)

/-! ## Cascaded sums (`ops/fp_arith-inl.h`) and decompression (`compression/compress-inl.h`) -/

/-- Modelled from the spec: `UpdateCascadedSums` of `ops/fp_arith-inl.h`, whose body is not
in the sources at hand. Spec §4.1: "compute `sum' = sum + x` and a correction term
capturing the rounding residue, added into `err`". Returns `(sum, sum_err)`. -/
def UpdateCascadedSums (A : FpArith) {N : ℕ} (v sum sum_err : VF N) : VF N × VF N :=
  let s := TwoSums A sum v
  (s.1, Add sum_err s.2)

/-- Modelled from the spec: `ReduceCascadedSums` of `ops/fp_arith-inl.h`, whose body is not
in the sources at hand. Spec §4.1: "reduce across SIMD lanes by summing lane sum and lane
error separately and combining once at the end". -/
def ReduceCascadedSums {N : ℕ} (sum sum_err : VF N) : ℚ :=
  ReduceSum sum + ReduceSum sum_err

/-- Modelled from the spec: `Decompress2` of `compression/compress-inl.h`, whose body is not
in the sources at hand. Spec §2: "given a packed/compressed source and an offset/count,
yields a dense run of values": the two vectors hold the `2 * N` values from offset `i`. -/
def Decompress2 (N : ℕ) (p : ℕ → ℚ) (i : ℕ) : VF N × VF N :=
  (fun l => p (i + l.val), fun l => p (i + N + l.val))

/-- Modelled from the spec: `DecompressAndZeroPad` of `compression/compress-inl.h`, whose
body is not in the sources at hand. Spec §4.2: the remainder "is decompressed once into a
zero-padded scratch buffer": `remaining` values from offset `i`, zeros after them. -/
def DecompressAndZeroPad (p : ℕ → ℚ) (i remaining : ℕ) : ℕ → ℚ :=
  fun k => if k < remaining then p (i + k) else 0

/-! ## `ConditionNumber` -/

/-- How a call can end without returning a value. -/
inductive Fault where
  /-- `HWY_ASSERT(cond >= 0.0)` failed. -/
  | assertFailed
  /-- `HWY_DASSERT(remaining < 2 * N)` failed (debug builds). -/
  | dassertFailed
  /-- A division by zero would have been executed. -/
  | divByZero
  /-- A loop did not finish within its fuel. -/
  | outOfFuel
  deriving DecidableEq, Repr

/-- The four accumulators of `ConditionNumber`. -/
structure CondSums (N : ℕ) where
  sum : VF N
  sum_err : VF N
  sum_abs : VF N
  sum_abs_err : VF N

/-- The accumulators at function entry: all `hn::Zero(df)`. -/
def CondSums.zero (N : ℕ) : CondSums N := ⟨Zero N, Zero N, Zero N, Zero N⟩

/-- Body of the main loop of `ConditionNumber(w, v, num)` (dot-inl.h:68-76). -/
def ConditionNumber.block (A : FpArith) (N : ℕ) (w v : ℕ → ℚ) (i : ℕ) (st : CondSums N) :
    CondSums N :=
  let wd := Decompress2 N w i
  let vd := Decompress2 N v i
  let mul0 := Mul wd.1 vd.1
  let mul1 := Mul wd.2 vd.2
  let s0 := UpdateCascadedSums A mul0 st.sum st.sum_err
  let s1 := UpdateCascadedSums A mul1 s0.1 s0.2
  let a0 := UpdateCascadedSums A (Abs mul0) st.sum_abs st.sum_abs_err
  let a1 := UpdateCascadedSums A (Abs mul1) a0.1 a0.2
  ⟨s1.1, s1.2, a1.1, a1.2⟩

/-- Main loop `for (; i <= num - 2 * N; i += 2 * N)` (dot-inl.h:67-77); returns the final
`i` and accumulators, or `none` when the fuel runs out. -/
def ConditionNumber.mainLoop (A : FpArith) (N : ℕ) (w v : ℕ → ℚ) (num : ℕ) :
    ℕ → ℕ → CondSums N → Option (ℕ × CondSums N)
  | 0, i, st => if i ≤ subSz num (mulSz 2 N) then none else some (i, st)
  | fuel + 1, i, st =>
    if i ≤ subSz num (mulSz 2 N) then
      ConditionNumber.mainLoop A N w v num fuel (addSz i (mulSz 2 N))
        (ConditionNumber.block A N w v i st)
    else some (i, st)

/-- Body of the remainder loop of `ConditionNumber(w, v, num)` (dot-inl.h:90-94). -/
def ConditionNumber.tailStep (A : FpArith) (N : ℕ) (padded_w padded_v : ℕ → ℚ)
    (padded_pos : ℕ) (st : CondSums N) : CondSums N :=
  let w0 := Load N padded_w padded_pos
  let v0 := Load N padded_v padded_pos
  let mul := Mul w0 v0
  let s := UpdateCascadedSums A mul st.sum st.sum_err
  let a := UpdateCascadedSums A (Abs mul) st.sum_abs st.sum_abs_err
  ⟨s.1, s.2, a.1, a.2⟩

/-- Remainder loop `for (padded_pos = 0; padded_pos < remaining; padded_pos += N)`
(dot-inl.h:89-95); `none` when the fuel runs out. -/
def ConditionNumber.tailLoop (A : FpArith) (N : ℕ) (padded_w padded_v : ℕ → ℚ)
    (remaining : ℕ) : ℕ → ℕ → CondSums N → Option (CondSums N)
  | 0, padded_pos, st => if padded_pos < remaining then none else some st
  | fuel + 1, padded_pos, st =>
    if padded_pos < remaining then
      ConditionNumber.tailLoop A N padded_w padded_v remaining fuel (addSz padded_pos N)
        (ConditionNumber.tailStep A N padded_w padded_v padded_pos st)
    else some st

/-- Lines 98-103 of dot-inl.h: from the two reduced sums to the returned value. -/
def ConditionNumber.finish (r r_abs : ℚ) : Except Fault (WithTop ℚ) :=
  let div := |r|
  if div = 0 then .ok ⊤
  else
    match fdiv (2 * r_abs) div with
    | none => .error .divByZero
    | some cond => if cond ≥ 0 then .ok (cond : WithTop ℚ) else .error .assertFailed

/-- Lines 57-96 of dot-inl.h: the accumulators of `ConditionNumber(w, v, num)` after both
loops. The loops get `num` units of fuel. -/
def ConditionNumber.accumulate (A : FpArith) (N : ℕ) (w v : ℕ → ℚ) (num : ℕ) :
    Except Fault (CondSums N) :=
  let st0 := CondSums.zero N
  let m := if num ≥ mulSz 2 N then ConditionNumber.mainLoop A N w v num num 0 st0
    else some (0, st0)
  match m with
  | none => .error .outOfFuel
  | some (i, st) =>
    let remaining := subSz num i
    if ¬ remaining < mulSz 2 N then .error .dassertFailed
    else if remaining ≠ 0 then
      let padded_w := DecompressAndZeroPad w i remaining
      let padded_v := DecompressAndZeroPad v i remaining
      match ConditionNumber.tailLoop A N padded_w padded_v remaining remaining 0 st with
      | none => .error .outOfFuel
      | some st2 => .ok st2
    else .ok st

/-- `ConditionNumber(w, v, num)` (dot-inl.h:48-104) for `N = hn::Lanes(df)` lanes. -/
def ConditionNumber (A : FpArith) (N : ℕ) (w v : ℕ → ℚ) (num : ℕ) : Except Fault (WithTop ℚ) :=
  match ConditionNumber.accumulate A N w v num with
  | .error f => .error f
  | .ok st =>
    ConditionNumber.finish (ReduceCascadedSums st.sum st.sum_err)
      (ReduceCascadedSums st.sum_abs st.sum_abs_err)

/-- The first `q` blocks of the main loop of `ConditionNumber(w, v, num)` from index `i` on:
`q` applications of the loop body at `i`, `i + 2 * N`, ... -/
def ConditionNumber.blocks (A : FpArith) (N : ℕ) (w v : ℕ → ℚ) :
    ℕ → ℕ → CondSums N → CondSums N
  | 0, _, st => st
  | q + 1, i, st =>
    ConditionNumber.blocks A N w v q (i + 2 * N) (ConditionNumber.block A N w v i st)

/-- Body of the main loop of `ConditionNumber(v, num)` (dot-inl.h:125-130). -/
def ConditionNumber1.block (A : FpArith) (N : ℕ) (v : ℕ → ℚ) (i : ℕ) (st : CondSums N) :
    CondSums N :=
  let vd := Decompress2 N v i
  let s0 := UpdateCascadedSums A vd.1 st.sum st.sum_err
  let s1 := UpdateCascadedSums A vd.2 s0.1 s0.2
  let a0 := UpdateCascadedSums A (Abs vd.1) st.sum_abs st.sum_abs_err
  let a1 := UpdateCascadedSums A (Abs vd.2) a0.1 a0.2
  ⟨s1.1, s1.2, a1.1, a1.2⟩

/-- Main loop `for (; i <= num - 2 * N; i += 2 * N)` of the single-vector overload
(dot-inl.h:124-131); `none` when the fuel runs out. -/
def ConditionNumber1.mainLoop (A : FpArith) (N : ℕ) (v : ℕ → ℚ) (num : ℕ) :
    ℕ → ℕ → CondSums N → Option (ℕ × CondSums N)
  | 0, i, st => if i ≤ subSz num (mulSz 2 N) then none else some (i, st)
  | fuel + 1, i, st =>
    if i ≤ subSz num (mulSz 2 N) then
      ConditionNumber1.mainLoop A N v num fuel (addSz i (mulSz 2 N))
        (ConditionNumber1.block A N v i st)
    else some (i, st)

/-- Body of the remainder loop of `ConditionNumber(v, num)` (dot-inl.h:142-144). -/
def ConditionNumber1.tailStep (A : FpArith) (N : ℕ) (padded_v : ℕ → ℚ)
    (padded_pos : ℕ) (st : CondSums N) : CondSums N :=
  let v0 := Load N padded_v padded_pos
  let s := UpdateCascadedSums A v0 st.sum st.sum_err
  let a := UpdateCascadedSums A (Abs v0) st.sum_abs st.sum_abs_err
  ⟨s.1, s.2, a.1, a.2⟩

/-- Remainder loop of the single-vector overload (dot-inl.h:141-145); `none` when the fuel
runs out. -/
def ConditionNumber1.tailLoop (A : FpArith) (N : ℕ) (padded_v : ℕ → ℚ)
    (remaining : ℕ) : ℕ → ℕ → CondSums N → Option (CondSums N)
  | 0, padded_pos, st => if padded_pos < remaining then none else some st
  | fuel + 1, padded_pos, st =>
    if padded_pos < remaining then
      ConditionNumber1.tailLoop A N padded_v remaining fuel (addSz padded_pos N)
        (ConditionNumber1.tailStep A N padded_v padded_pos st)
    else some st

/-- Lines 115-146 of dot-inl.h: the accumulators of `ConditionNumber(v, num)` after both
loops. The loops get `num` units of fuel. -/
def ConditionNumber1.accumulate (A : FpArith) (N : ℕ) (v : ℕ → ℚ) (num : ℕ) :
    Except Fault (CondSums N) :=
  let st0 := CondSums.zero N
  let m := if num ≥ mulSz 2 N then ConditionNumber1.mainLoop A N v num num 0 st0
    else some (0, st0)
  match m with
  | none => .error .outOfFuel
  | some (i, st) =>
    let remaining := subSz num i
    if ¬ remaining < mulSz 2 N then .error .dassertFailed
    else if remaining ≠ 0 then
      let padded_v := DecompressAndZeroPad v i remaining
      match ConditionNumber1.tailLoop A N padded_v remaining remaining 0 st with
      | none => .error .outOfFuel
      | some st2 => .ok st2
    else .ok st

/-- The single-vector overload `ConditionNumber(v, num)` (dot-inl.h:107-154); its last six
lines are those of the two-vector overload. -/
def ConditionNumber1 (A : FpArith) (N : ℕ) (v : ℕ → ℚ) (num : ℕ) : Except Fault (WithTop ℚ) :=
  match ConditionNumber1.accumulate A N v num with
  | .error f => .error f
  | .ok st =>
    ConditionNumber.finish (ReduceCascadedSums st.sum st.sum_err)
      (ReduceCascadedSums st.sum_abs st.sum_abs_err)

/-! ## `DotKernelCompensated` -/

/-- `DotKernelCompensated::Update1` for float inputs (dot-inl.h:208-218); returns the new
`(sum0, comp0)`. -/
def DotKernelCompensated.Update1 (A : FpArith) {N : ℕ} (w0 v0 sum0 comp0 : VF N) :
    VF N × VF N :=
  let p0 := TwoProducts A w0 v0
  let s0 := TwoSums A p0.1 sum0
  (s0.1, Add comp0 (Add p0.2 s0.2))

/-- `DotKernelCompensated::Update1` for bf16 inputs (dot-inl.h:220-231); returns the new
`(sum0, comp0)`. -/
def DotKernelCompensated.Update1BF (A : FpArith) {N : ℕ} (w0 v0 : VBF N) (sum0 comp0 : VF N) :
    VF N × VF N :=
  let prod0 := A.WidenMulPairwiseAdd N w0 v0
  let s0 := TwoSums A prod0 sum0
  (s0.1, Add comp0 s0.2)

/-- The eight accumulators that `Update4` and `Reduce` take by reference. -/
structure Acc4 (N : ℕ) where
  sum0 : VF N
  sum1 : VF N
  sum2 : VF N
  sum3 : VF N
  comp0 : VF N
  comp1 : VF N
  comp2 : VF N
  comp3 : VF N

/-- `DotKernelCompensated::Update4` for float inputs (dot-inl.h:160-181). -/
def DotKernelCompensated.Update4 (A : FpArith) {N : ℕ} (w0 w1 w2 w3 v0 v1 v2 v3 : VF N)
    (acc : Acc4 N) : Acc4 N :=
  let p0 := TwoProducts A w0 v0
  let p1 := TwoProducts A w1 v1
  let p2 := TwoProducts A w2 v2
  let p3 := TwoProducts A w3 v3
  let s0 := TwoSums A p0.1 acc.sum0
  let s1 := TwoSums A p1.1 acc.sum1
  let s2 := TwoSums A p2.1 acc.sum2
  let s3 := TwoSums A p3.1 acc.sum3
  { sum0 := s0.1, sum1 := s1.1, sum2 := s2.1, sum3 := s3.1,
    comp0 := Add acc.comp0 (Add p0.2 s0.2),
    comp1 := Add acc.comp1 (Add p1.2 s1.2),
    comp2 := Add acc.comp2 (Add p2.2 s2.2),
    comp3 := Add acc.comp3 (Add p3.2 s3.2) }

/-- `DotKernelCompensated::Update4` for bf16 inputs (dot-inl.h:183-206). -/
def DotKernelCompensated.Update4BF (A : FpArith) {N : ℕ} (w0 w1 w2 w3 v0 v1 v2 v3 : VBF N)
    (acc : Acc4 N) : Acc4 N :=
  let prod0 := A.WidenMulPairwiseAdd N w0 v0
  let prod1 := A.WidenMulPairwiseAdd N w1 v1
  let prod2 := A.WidenMulPairwiseAdd N w2 v2
  let prod3 := A.WidenMulPairwiseAdd N w3 v3
  let s0 := TwoSums A prod0 acc.sum0
  let s1 := TwoSums A prod1 acc.sum1
  let s2 := TwoSums A prod2 acc.sum2
  let s3 := TwoSums A prod3 acc.sum3
  { sum0 := s0.1, sum1 := s1.1, sum2 := s2.1, sum3 := s3.1,
    comp0 := Add acc.comp0 s0.2,
    comp1 := Add acc.comp1 s1.2,
    comp2 := Add acc.comp2 s2.2,
    comp3 := Add acc.comp3 s3.2 }

/-- Modelled from the spec: `AssimilateCascadedSums` of `ops/fp_arith-inl.h`, whose body is
not in the sources at hand. Spec §4.1: "merge accumulator B into accumulator A by adding
B's sum into A's sum (again via two-sum) and summing both error terms". The arguments are
those of the call sites: `(other_sum, other_comp)` is B, `(sum, comp)` is A; the two-sum is
the one of `UpdateCascadedSums`, whose rounding residue goes into the error term. Returns
the new `(sum, comp)`. -/
def AssimilateCascadedSums (A : FpArith) {N : ℕ} (other_sum other_comp sum comp : VF N) :
    VF N × VF N :=
  let u := UpdateCascadedSums A other_sum sum comp
  (u.1, Add u.2 other_comp)

/-- The accumulators `(sum0, comp0)` as `DotKernelCompensated::Reduce` leaves them before
its cross-lane reduction (dot-inl.h:237-239): 1 is merged into 0, 3 into 2, then 2 into
0. -/
def DotKernelCompensated.ReduceTree (A : FpArith) {N : ℕ} (acc : Acc4 N) : VF N × VF N :=
  let a0 := AssimilateCascadedSums A acc.sum1 acc.comp1 acc.sum0 acc.comp0
  let a2 := AssimilateCascadedSums A acc.sum3 acc.comp3 acc.sum2 acc.comp2
  AssimilateCascadedSums A a2.1 a2.2 a0.1 a0.2

/-- `DotKernelCompensated::Reduce` (dot-inl.h:233-241): the returned float. -/
def DotKernelCompensated.Reduce (A : FpArith) {N : ℕ} (acc : Acc4 N) : ℚ :=
  let t := DotKernelCompensated.ReduceTree A acc
  ReduceCascadedSums t.1 t.2

/-! ## `Dot` and its adapters -/

/-- `PackedSpan<const T>` as `MakeSpan` / `MakeConstSpan` build it: a pointer and the
number of elements behind it. -/
structure PackedSpan where
  ptr : ℕ → ℚ
  num : ℕ

/-- `MakeSpan(ptr, num)`. -/
def MakeSpan (ptr : ℕ → ℚ) (num : ℕ) : PackedSpan := ⟨ptr, num⟩

/-- `MakeConstSpan(ptr, num)`. -/
def MakeConstSpan (ptr : ℕ → ℚ) (num : ℕ) : PackedSpan := ⟨ptr, num⟩

/-- `CompressedArray<MatT, kCapacity>` as far as `Dot` uses it: `data()`, the capacity and
`scale()`. -/
structure CompressedArray where
  data : ℕ → ℚ
  kCapacity : ℕ
  scale : ℚ

/-- `std::array<float, kCapacity>`: `data()` and the capacity. -/
structure StdArray where
  data : ℕ → ℚ
  kCapacity : ℕ

/-- Type of `DecompressAndCall` (compression/compress-inl.h, body not in the sources at
hand) applied to the kernel `DotKernelCompensated()`: from the weight span, the weight
offset and the vector span to the reduced float. `Dot` is parametric in it. -/
abbrev DecompressAndCallFn := PackedSpan → ℕ → PackedSpan → ℚ

/-- Default kernel `Dot(d, w, w_ofs, vec, num)` on a `PackedSpan` (dot-inl.h:245-250). -/
def Dot (DecompressAndCall : DecompressAndCallFn) (w : PackedSpan) (w_ofs : ℕ) (vec : ℕ → ℚ)
    (num : ℕ) : ℚ :=
  DecompressAndCall w w_ofs (MakeSpan vec num)

/-- Adapter `Dot(w, vec, num)` for a single pointer (dot-inl.h:253-258). -/
def DotPtr (DecompressAndCall : DecompressAndCallFn) (w : ℕ → ℚ) (vec : ℕ → ℚ) (num : ℕ) : ℚ :=
  Dot DecompressAndCall (MakeConstSpan w num) 0 vec num

/-- Adapter `Dot(w, w_ofs, vec, num)` for a `std::array` (dot-inl.h:261-266). -/
def DotArray (DecompressAndCall : DecompressAndCallFn) (w : StdArray) (w_ofs : ℕ)
    (vec : ℕ → ℚ) (num : ℕ) : ℚ :=
  Dot DecompressAndCall (MakeConstSpan w.data w.kCapacity) w_ofs vec num

/-- Adapter `Dot(w, w_ofs, vec, num)` for a `CompressedArray` (dot-inl.h:269-275). -/
def DotCompressed (DecompressAndCall : DecompressAndCallFn) (w : CompressedArray) (w_ofs : ℕ)
    (vec : ℕ → ℚ) (num : ℕ) : ℚ :=
  w.scale * Dot DecompressAndCall (MakeConstSpan w.data w.kCapacity) w_ofs vec num

/-! ## `AdamUpdate` -/

/-- Modelled from the spec: the body of `AdamUpdate` is not in the sources at hand
(`backprop/optimizer.h` only declares it). Spec §4.4, for one tensor position:
`m_i = beta1*m_i + (1-beta1)*g_i`, `v_i = beta2*v_i + (1-beta2)*g_i^2`,
`m_hat = m_i / (1 - beta1^t)`, `v_hat = v_i / (1 - beta2^t)`,
`w_i = w_i - alpha * m_hat / (sqrt(v_hat) + epsilon)`.
Returns the new `(w_i, m_i, v_i)`, or `none` when one of the three divisions has a zero
divisor. The square root is a parameter; `Rat.sqrt`, exact on squares of rationals, is
the instance used for concrete runs. -/
def AdamUpdate.element (sqrt : ℚ → ℚ) (alpha beta1 beta2 epsilon : ℚ) (t : ℕ)
    (g w m v : ℚ) : Option (ℚ × ℚ × ℚ) :=
  let m1 := beta1 * m + (1 - beta1) * g
  let v1 := beta2 * v + (1 - beta2) * g ^ 2
  match fdiv m1 (1 - beta1 ^ t), fdiv v1 (1 - beta2 ^ t) with
  | some m_hat, some v_hat =>
    match fdiv (alpha * m_hat) (sqrt v_hat + epsilon) with
    | some d => some (w - d, m1, v1)
    | none => none
  | _, _ => none

/-- How `AdamUpdate` can end without a result. -/
inductive AdamFault where
  /-- Mismatched tensor counts or shapes between `grad`, `weights`, `grad_m`, `grad_v`. -/
  | shapeMismatch
  /-- An element update divides by zero. -/
  | divByZero
  deriving DecidableEq, Repr

/-- Modelled from the spec: `AdamUpdate` on one tensor, position by position (spec §4.4:
"applied independently per element"); a length mismatch is the fatal precondition
violation of §4.4. Returns the new `(weights, grad_m, grad_v)` of the tensor. -/
def AdamUpdate.tensor (sqrt : ℚ → ℚ) (alpha beta1 beta2 epsilon : ℚ) (t : ℕ) :
    List ℚ → List ℚ → List ℚ → List ℚ → Except AdamFault (List ℚ × List ℚ × List ℚ)
  | [], [], [], [] => .ok ([], [], [])
  | g :: gs, w :: ws, m :: ms, v :: vs =>
    match AdamUpdate.element sqrt alpha beta1 beta2 epsilon t g w m v with
    | none => .error .divByZero
    | some (w1, m1, v1) =>
      match AdamUpdate.tensor sqrt alpha beta1 beta2 epsilon t gs ws ms vs with
      | .error f => .error f
      | .ok (ws1, ms1, vs1) => .ok (w1 :: ws1, m1 :: ms1, v1 :: vs1)
  | _, _, _, _ => .error .shapeMismatch

/-- A collection of tensors (`ModelWeightsStorage`): each tensor is the list of its
elements. -/
abbrev Tensors := List (List ℚ)

/-- Modelled from the spec: `AdamUpdate(weight_type, grad, alpha, beta1, beta2, epsilon, t,
weights, grad_m, grad_v, pool)` (declared at optimizer.h:25-29, body not in the sources at
hand), tensor by tensor (spec §4.4: "for every tensor position `i` across every tensor in
the weight collection"). The element type tag and the thread pool do not enter the
result and are left out. Returns the new `(weights, grad_m, grad_v)`. -/
def AdamUpdate (sqrt : ℚ → ℚ) (grad : Tensors) (alpha beta1 beta2 epsilon : ℚ) (t : ℕ)
    (weights grad_m grad_v : Tensors) : Except AdamFault (Tensors × Tensors × Tensors) :=
  match grad, weights, grad_m, grad_v with
  | [], [], [], [] => .ok ([], [], [])
  | g :: gs, w :: ws, m :: ms, v :: vs =>
    match AdamUpdate.tensor sqrt alpha beta1 beta2 epsilon t g w m v with
    | .error f => .error f
    | .ok (w1, m1, v1) =>
      match AdamUpdate sqrt gs alpha beta1 beta2 epsilon t ws ms vs with
      | .error f => .error f
      | .ok (ws1, ms1, vs1) => .ok (w1 :: ws1, m1 :: ms1, v1 :: vs1)
  | _, _, _, _ => .error .shapeMismatch

/-! ## Specification-side definitions and sample inputs -/

/-- The pointer to an array holding the values `xs` (zero outside it). -/
def ofList (xs : List ℚ) : ℕ → ℚ := fun k => xs.getD k 0

/-- The run `p[0..num)` extended with zeros: the first `num` values of `p`, then zeros. -/
def zeroExtend (p : ℕ → ℚ) (num : ℕ) : ℕ → ℚ := fun k => if k < num then p k else 0

/-- The size `num` rounded up to the next multiple of `m`: the least multiple of `m` that
is at least `num`. -/
def roundUpTo (num m : ℕ) : ℕ := (num + m - 1) / m * m

/-- A collection of all-zero tensors with the shape of `ws`. -/
def zerosLike (ws : Tensors) : Tensors := ws.map (fun x => x.map (fun _ => 0))

/-- Sample weights. -/
def wEx : ℕ → ℚ := ofList [3, -1, 1 / 2, 2, 5]

/-- Sample vector. -/
def vEx : ℕ → ℚ := ofList [1, -2, 1, -2, 1]

/-! ## Index traces of the loops of `ConditionNumber` -/

/-- The loop header `for (; i <= num - 2 * N; i += 2 * N)` on its own (dot-inl.h:67 and,
with the same text, dot-inl.h:124): the values of `i` at which the body runs, in order, and
the value of `i` at loop exit; `none` when the fuel runs out. -/
def ConditionNumber.mainIndices (N num : ℕ) : ℕ → ℕ → Option (List ℕ × ℕ)
  | 0, i => if i ≤ subSz num (mulSz 2 N) then none else some ([], i)
  | fuel + 1, i =>
    if i ≤ subSz num (mulSz 2 N) then
      match ConditionNumber.mainIndices N num fuel (addSz i (mulSz 2 N)) with
      | none => none
      | some r => some (i :: r.1, r.2)
    else some ([], i)

/-- The loop header `for (size_t padded_pos = 0; padded_pos < remaining; padded_pos += N)`
on its own (dot-inl.h:89 and dot-inl.h:141), started at `padded_pos`: the values of
`padded_pos` at which the body runs, in order; `none` when the fuel runs out. -/
def ConditionNumber.tailIndices (N remaining : ℕ) : ℕ → ℕ → Option (List ℕ)
  | 0, padded_pos => if padded_pos < remaining then none else some []
  | fuel + 1, padded_pos =>
    if padded_pos < remaining then
      match ConditionNumber.tailIndices N remaining fuel (addSz padded_pos N) with
      | none => none
      | some r => some (padded_pos :: r)
    else some []

/-! ## Number formats -/

/-- A binary floating-point format: `prec` significant bits, least positive value
`2 ^ emin`, and every finite value below `2 ^ emax` in magnitude. -/
structure Format where
  prec : ℕ
  emin : ℤ
  emax : ℤ

/-- The format of `float`: 24 significant bits, subnormals down to `2 ^ (-149)`, finite
values below `2 ^ 128`. -/
def binary32 : Format := ⟨24, -149, 128⟩

/-- The format of `double`: 53 significant bits, subnormals down to `2 ^ (-1074)`, finite
values below `2 ^ 1024`. -/
def binary64 : Format := ⟨53, -1074, 1024⟩

/-- The format of `hwy::bfloat16_t`: 8 significant bits and the exponent range of `float`,
so subnormals down to `2 ^ (-133)`. -/
def bfloat16 : Format := ⟨8, -133, 128⟩

/-- A finite value of the format: `m * 2 ^ e` with an integer significand `|m| < 2 ^ prec`,
an exponent `e ≥ emin`, and magnitude below `2 ^ emax`. -/
def HasSignificand (f : Format) (x : ℚ) : Prop :=
  ∃ m e : ℤ, |m| < 2 ^ f.prec ∧ f.emin ≤ e ∧ |x| < (2 : ℚ) ^ f.emax ∧ x = (m : ℚ) * (2 : ℚ) ^ e

/-- A finite value of `hwy::bfloat16_t`. -/
def IsBF16 (x : ℚ) : Prop := HasSignificand bfloat16 x

/-- A finite value of `float` (binary32). -/
def IsF32 (x : ℚ) : Prop := HasSignificand binary32 x

/-- Modelled from the spec: the body of Highway's `WidenMulPairwiseAdd` is not in the
sources at hand. Spec §4.1 calls it a "widening (e.g., narrow-to-wide) multiply-add"; this
is the exact value that lane `l` of `WidenMulPairwiseAdd(df, w, v)` stands for, the sum of
the products of the even and of the odd bf16 lane of pair `l`. -/
def pairSum {N : ℕ} (w v : VBF N) (l : Fin N) : ℚ :=
  w ⟨2 * l.val, by omega⟩ * v ⟨2 * l.val, by omega⟩
    + w ⟨2 * l.val + 1, by omega⟩ * v ⟨2 * l.val + 1, by omega⟩

/-! ## Binary floating point: rounding, overflow and NaN -/

namespace Ieee

/-- A floating-point datum: a finite value, an infinity (`neg` is its sign bit) or NaN.
The sign of a zero is not represented. -/
inductive Fp where
  | fin (x : ℚ)
  | inf (neg : Bool)
  | nan
  deriving DecidableEq

/-- The integer nearest to `y`, ties going to the even one. -/
def roundHalfEven (y : ℚ) : ℤ :=
  if y - (⌊y⌋ : ℤ) < 1 / 2 then ⌊y⌋
  else if 1 / 2 < y - (⌊y⌋ : ℤ) then ⌊y⌋ + 1
  else if ⌊y⌋ % 2 = 0 then ⌊y⌋ else ⌊y⌋ + 1

/-- Exponent of the unit in the last place of the format at `x`: `prec - 1` below the
exponent of `x`, and not below `emin`. -/
def ulpExp (f : Format) (x : ℚ) : ℤ := max (Int.log 2 |x| - ((f.prec : ℤ) - 1)) f.emin

/-- Round to nearest, ties to even, with `prec` significant bits and subnormals, the
exponent being unbounded above. -/
def roundFin (f : Format) (x : ℚ) : ℚ :=
  (roundHalfEven (x / (2 : ℚ) ^ ulpExp f x) : ℚ) * (2 : ℚ) ^ ulpExp f x

/-- The value of the format that stands for the exact result `x`: rounded to nearest even,
an infinity when the rounded magnitude reaches `2 ^ emax`. -/
def round (f : Format) (x : ℚ) : Fp :=
  if (2 : ℚ) ^ f.emax ≤ |roundFin f x| then .inf (decide (x < 0)) else .fin (roundFin f x)

/-- Addition in the format `f`. -/
def add (f : Format) : Fp → Fp → Fp
  | .fin a, .fin b => round f (a + b)
  | .fin _, .inf s => .inf s
  | .inf s, .fin _ => .inf s
  | .inf s, .inf t => if s = t then .inf s else .nan
  | .nan, _ => .nan
  | _, .nan => .nan

/-- Multiplication in the format `f`. -/
def mul (f : Format) : Fp → Fp → Fp
  | .fin a, .fin b => round f (a * b)
  | .fin a, .inf s => if a = 0 then .nan else .inf (xor s (decide (a < 0)))
  | .inf s, .fin b => if b = 0 then .nan else .inf (xor s (decide (b < 0)))
  | .inf s, .inf t => .inf (xor s t)
  | .nan, _ => .nan
  | _, .nan => .nan

/-- Division in the format `f`; a zero divisor is taken as `+0`. -/
def div (f : Format) : Fp → Fp → Fp
  | .fin a, .fin b =>
    if b = 0 then (if a = 0 then .nan else .inf (decide (a < 0))) else round f (a / b)
  | .fin _, .inf _ => .fin 0
  | .inf s, .fin b => .inf (xor s (decide (b < 0)))
  | .inf _, .inf _ => .nan
  | .nan, _ => .nan
  | _, .nan => .nan

/-- Absolute value (`hn::Abs` on a lane, `hwy::ScalarAbs`): clears the sign. -/
def abs : Fp → Fp
  | .fin a => .fin |a|
  | .inf _ => .inf false
  | .nan => .nan

/-- The comparison `x == 0.0f`. -/
def isZero : Fp → Bool
  | .fin a => decide (a = 0)
  | _ => false

/-- The comparison `x >= 0.0`: false for NaN. -/
def geZero : Fp → Bool
  | .fin a => decide (0 ≤ a)
  | .inf s => !s
  | .nan => false

/-- Vector of `N` float lanes (`hn::Vec<hn::ScalableTag<float>>`). -/
abbrev VF (N : ℕ) := Fin N → Fp

/-- Vector of bf16 lanes: twice as many lanes as the float vector of the same width. -/
abbrev VBF (N : ℕ) := Fin (2 * N) → Fp

/-- The primitives of `ops/fp_arith-inl.h` and of Highway that `dot-inl.h` calls and whose
bodies are not in the sources at hand, on floating-point data: `TwoSum a b` returns the sum
and its error term, `TwoProduct a b` the product and its error term (one lane each), and
`WidenMulPairwiseAdd` maps two bf16 vectors to one float vector. -/
structure Arith where
  TwoSum : Fp → Fp → Fp × Fp
  TwoProduct : Fp → Fp → Fp × Fp
  WidenMulPairwiseAdd : (N : ℕ) → VBF N → VBF N → VF N

/-- Modelled from the spec: the rounding residue of an operation on finite operands with
exact result `x` and finite returned value `z`, as a `float`; NaN when an operand or the
returned value is not finite (§4.1: "a correction term capturing the rounding residue"). -/
def residue (x : Option ℚ) (z : Fp) : Fp :=
  match x, z with
  | some x, .fin z => round binary32 (x - z)
  | _, _ => .nan

/-- The exact sum of two finite data. -/
def exactSum : Fp → Fp → Option ℚ
  | .fin a, .fin b => some (a + b)
  | _, _ => none

/-- The exact product of two finite data. -/
def exactProd : Fp → Fp → Option ℚ
  | .fin a, .fin b => some (a * b)
  | _, _ => none

/-- Modelled from the spec: binary32 arithmetic for the primitives whose bodies are not in
the sources at hand. The two-sum returns the `float` sum and its rounding residue, the
two-product the `float` product and its rounding residue (§4.1), and
`WidenMulPairwiseAdd` the `float` sum of the two `float` products of a bf16 pair. -/
def binary32Arith : Arith where
  TwoSum a b := (add binary32 a b, residue (exactSum a b) (add binary32 a b))
  TwoProduct a b := (mul binary32 a b, residue (exactProd a b) (mul binary32 a b))
  WidenMulPairwiseAdd N w v := fun l =>
    add binary32 (mul binary32 (w ⟨2 * l.val, by omega⟩) (v ⟨2 * l.val, by omega⟩))
      (mul binary32 (w ⟨2 * l.val + 1, by omega⟩) (v ⟨2 * l.val + 1, by omega⟩))

/-- `hn::Zero(df)`. -/
def Zero (N : ℕ) : VF N := fun _ => .fin 0

/-- `hn::Add(a, b)` on float lanes: rounds to binary32. -/
def Add {N : ℕ} (a b : VF N) : VF N := fun l => add binary32 (a l) (b l)

/-- `hn::Mul(a, b)` on float lanes: rounds to binary32 and overflows to an infinity. -/
def Mul {N : ℕ} (a b : VF N) : VF N := fun l => mul binary32 (a l) (b l)

/-- `hn::Abs(a)`. -/
def Abs {N : ℕ} (a : VF N) : VF N := fun l => abs (a l)

/-- `hn::Load(df, p + pos)`: the `N` consecutive values starting at `pos`. -/
def Load (N : ℕ) (p : ℕ → Fp) (pos : ℕ) : VF N := fun l => p (pos + l.val)

/-- Sum of all lanes of a vector in binary32. The sources at hand do not fix the order of
the additions; they are done in lane order. -/
def ReduceSum {N : ℕ} (a : VF N) : Fp :=
  Fin.foldl N (fun acc l => add binary32 acc (a l)) (.fin 0)

/-- `TwoSums(df, a, b, err)`: the lane-wise two-sum; returns `(sum, err)`. -/
def TwoSums (A : Arith) {N : ℕ} (a b : VF N) : VF N × VF N :=
  (fun l => (A.TwoSum (a l) (b l)).1, fun l => (A.TwoSum (a l) (b l)).2)

/-- `TwoProducts(df, a, b, err)`: the lane-wise two-product; returns `(prod, err)`. -/
def TwoProducts (A : Arith) {N : ℕ} (a b : VF N) : VF N × VF N :=
  (fun l => (A.TwoProduct (a l) (b l)).1, fun l => (A.TwoProduct (a l) (b l)).2)

/-- Modelled from the spec: `UpdateCascadedSums` of `ops/fp_arith-inl.h`, whose body is not
in the sources at hand. Spec §4.1: "compute `sum' = sum + x` and a correction term
capturing the rounding residue, added into `err`". Returns `(sum, sum_err)`. -/
def UpdateCascadedSums (A : Arith) {N : ℕ} (v sum sum_err : VF N) : VF N × VF N :=
  let s := TwoSums A sum v
  (s.1, Add sum_err s.2)

/-- Modelled from the spec: `ReduceCascadedSums` of `ops/fp_arith-inl.h`, whose body is not
in the sources at hand. Spec §4.1: "reduce across SIMD lanes by summing lane sum and lane
error separately and combining once at the end". -/
def ReduceCascadedSums {N : ℕ} (sum sum_err : VF N) : Fp :=
  add binary32 (ReduceSum sum) (ReduceSum sum_err)

/-- Modelled from the spec: `Decompress2` of `compression/compress-inl.h`, whose body is not
in the sources at hand. Spec §2: "given a packed/compressed source and an offset/count,
yields a dense run of values": the two vectors hold the `2 * N` values from offset `i`. -/
def Decompress2 (N : ℕ) (p : ℕ → Fp) (i : ℕ) : VF N × VF N :=
  (fun l => p (i + l.val), fun l => p (i + N + l.val))

/-- Modelled from the spec: `DecompressAndZeroPad` of `compression/compress-inl.h`, whose
body is not in the sources at hand. Spec §4.2: the remainder "is decompressed once into a
zero-padded scratch buffer": `remaining` values from offset `i`, zeros after them. -/
def DecompressAndZeroPad (p : ℕ → Fp) (i remaining : ℕ) : ℕ → Fp :=
  fun k => if k < remaining then p (i + k) else .fin 0

/-- The four accumulators of `ConditionNumber`. -/
structure CondSums (N : ℕ) where
  sum : VF N
  sum_err : VF N
  sum_abs : VF N
  sum_abs_err : VF N

/-- The accumulators at function entry: all `hn::Zero(df)`. -/
def CondSums.zero (N : ℕ) : CondSums N := ⟨Zero N, Zero N, Zero N, Zero N⟩

/-- Body of the main loop of `ConditionNumber(w, v, num)` (dot-inl.h:68-76). -/
def ConditionNumber.block (A : Arith) (N : ℕ) (w v : ℕ → Fp) (i : ℕ) (st : CondSums N) :
    CondSums N :=
  let wd := Decompress2 N w i
  let vd := Decompress2 N v i
  let mul0 := Mul wd.1 vd.1
  let mul1 := Mul wd.2 vd.2
  let s0 := UpdateCascadedSums A mul0 st.sum st.sum_err
  let s1 := UpdateCascadedSums A mul1 s0.1 s0.2
  let a0 := UpdateCascadedSums A (Abs mul0) st.sum_abs st.sum_abs_err
  let a1 := UpdateCascadedSums A (Abs mul1) a0.1 a0.2
  ⟨s1.1, s1.2, a1.1, a1.2⟩

/-- Main loop `for (; i <= num - 2 * N; i += 2 * N)` (dot-inl.h:67-77); returns the final
`i` and accumulators, or `none` when the fuel runs out. -/
def ConditionNumber.mainLoop (A : Arith) (N : ℕ) (w v : ℕ → Fp) (num : ℕ) :
    ℕ → ℕ → CondSums N → Option (ℕ × CondSums N)
  | 0, i, st => if i ≤ subSz num (mulSz 2 N) then none else some (i, st)
  | fuel + 1, i, st =>
    if i ≤ subSz num (mulSz 2 N) then
      ConditionNumber.mainLoop A N w v num fuel (addSz i (mulSz 2 N))
        (ConditionNumber.block A N w v i st)
    else some (i, st)

/-- Body of the remainder loop of `ConditionNumber(w, v, num)` (dot-inl.h:90-94). -/
def ConditionNumber.tailStep (A : Arith) (N : ℕ) (padded_w padded_v : ℕ → Fp)
    (padded_pos : ℕ) (st : CondSums N) : CondSums N :=
  let w0 := Load N padded_w padded_pos
  let v0 := Load N padded_v padded_pos
  let mul := Mul w0 v0
  let s := UpdateCascadedSums A mul st.sum st.sum_err
  let a := UpdateCascadedSums A (Abs mul) st.sum_abs st.sum_abs_err
  ⟨s.1, s.2, a.1, a.2⟩

/-- Remainder loop `for (padded_pos = 0; padded_pos < remaining; padded_pos += N)`
(dot-inl.h:89-95); `none` when the fuel runs out. -/
def ConditionNumber.tailLoop (A : Arith) (N : ℕ) (padded_w padded_v : ℕ → Fp)
    (remaining : ℕ) : ℕ → ℕ → CondSums N → Option (CondSums N)
  | 0, padded_pos, st => if padded_pos < remaining then none else some st
  | fuel + 1, padded_pos, st =>
    if padded_pos < remaining then
      ConditionNumber.tailLoop A N padded_w padded_v remaining fuel (addSz padded_pos N)
        (ConditionNumber.tailStep A N padded_w padded_v padded_pos st)
    else some st

/-- Lines 98-103 of dot-inl.h, from the two reduced `float` sums to the returned `double`:
`div` is a `float`, `+infinity` is returned when it compares equal to zero, `cond` is
computed in `double` and returned only if `cond >= 0.0` holds. -/
def ConditionNumber.finish (r r_abs : Fp) : Except Fault Fp :=
  let div := abs r
  if isZero div then .ok (.inf false)
  else
    let cond := Ieee.div binary64 (mul binary64 (.fin 2) r_abs) div
    if geZero cond then .ok cond else .error .assertFailed

/-- Lines 57-96 of dot-inl.h: the accumulators of `ConditionNumber(w, v, num)` after both
loops. The loops get `num` units of fuel. -/
def ConditionNumber.accumulate (A : Arith) (N : ℕ) (w v : ℕ → Fp) (num : ℕ) :
    Except Fault (CondSums N) :=
  let st0 := CondSums.zero N
  let m := if num ≥ mulSz 2 N then ConditionNumber.mainLoop A N w v num num 0 st0
    else some (0, st0)
  match m with
  | none => .error .outOfFuel
  | some (i, st) =>
    let remaining := subSz num i
    if ¬ remaining < mulSz 2 N then .error .dassertFailed
    else if remaining ≠ 0 then
      let padded_w := DecompressAndZeroPad w i remaining
      let padded_v := DecompressAndZeroPad v i remaining
      match ConditionNumber.tailLoop A N padded_w padded_v remaining remaining 0 st with
      | none => .error .outOfFuel
      | some st2 => .ok st2
    else .ok st

/-- `ConditionNumber(w, v, num)` (dot-inl.h:48-104) for `N = hn::Lanes(df)` lanes, on
floating-point data. -/
def ConditionNumber (A : Arith) (N : ℕ) (w v : ℕ → Fp) (num : ℕ) : Except Fault Fp :=
  match ConditionNumber.accumulate A N w v num with
  | .error f => .error f
  | .ok st =>
    ConditionNumber.finish (ReduceCascadedSums st.sum st.sum_err)
      (ReduceCascadedSums st.sum_abs st.sum_abs_err)

/-- Body of the main loop of `ConditionNumber(v, num)` (dot-inl.h:125-130). -/
def ConditionNumber1.block (A : Arith) (N : ℕ) (v : ℕ → Fp) (i : ℕ) (st : CondSums N) :
    CondSums N :=
  let vd := Decompress2 N v i
  let s0 := UpdateCascadedSums A vd.1 st.sum st.sum_err
  let s1 := UpdateCascadedSums A vd.2 s0.1 s0.2
  let a0 := UpdateCascadedSums A (Abs vd.1) st.sum_abs st.sum_abs_err
  let a1 := UpdateCascadedSums A (Abs vd.2) a0.1 a0.2
  ⟨s1.1, s1.2, a1.1, a1.2⟩

/-- Main loop `for (; i <= num - 2 * N; i += 2 * N)` of the single-vector overload
(dot-inl.h:124-131); `none` when the fuel runs out. -/
def ConditionNumber1.mainLoop (A : Arith) (N : ℕ) (v : ℕ → Fp) (num : ℕ) :
    ℕ → ℕ → CondSums N → Option (ℕ × CondSums N)
  | 0, i, st => if i ≤ subSz num (mulSz 2 N) then none else some (i, st)
  | fuel + 1, i, st =>
    if i ≤ subSz num (mulSz 2 N) then
      ConditionNumber1.mainLoop A N v num fuel (addSz i (mulSz 2 N))
        (ConditionNumber1.block A N v i st)
    else some (i, st)

/-- Body of the remainder loop of `ConditionNumber(v, num)` (dot-inl.h:142-144). -/
def ConditionNumber1.tailStep (A : Arith) (N : ℕ) (padded_v : ℕ → Fp)
    (padded_pos : ℕ) (st : CondSums N) : CondSums N :=
  let v0 := Load N padded_v padded_pos
  let s := UpdateCascadedSums A v0 st.sum st.sum_err
  let a := UpdateCascadedSums A (Abs v0) st.sum_abs st.sum_abs_err
  ⟨s.1, s.2, a.1, a.2⟩

/-- Remainder loop of the single-vector overload (dot-inl.h:141-145); `none` when the fuel
runs out. -/
def ConditionNumber1.tailLoop (A : Arith) (N : ℕ) (padded_v : ℕ → Fp)
    (remaining : ℕ) : ℕ → ℕ → CondSums N → Option (CondSums N)
  | 0, padded_pos, st => if padded_pos < remaining then none else some st
  | fuel + 1, padded_pos, st =>
    if padded_pos < remaining then
      ConditionNumber1.tailLoop A N padded_v remaining fuel (addSz padded_pos N)
        (ConditionNumber1.tailStep A N padded_v padded_pos st)
    else some st

/-- Lines 115-146 of dot-inl.h: the accumulators of `ConditionNumber(v, num)` after both
loops. The loops get `num` units of fuel. -/
def ConditionNumber1.accumulate (A : Arith) (N : ℕ) (v : ℕ → Fp) (num : ℕ) :
    Except Fault (CondSums N) :=
  let st0 := CondSums.zero N
  let m := if num ≥ mulSz 2 N then ConditionNumber1.mainLoop A N v num num 0 st0
    else some (0, st0)
  match m with
  | none => .error .outOfFuel
  | some (i, st) =>
    let remaining := subSz num i
    if ¬ remaining < mulSz 2 N then .error .dassertFailed
    else if remaining ≠ 0 then
      let padded_v := DecompressAndZeroPad v i remaining
      match ConditionNumber1.tailLoop A N padded_v remaining remaining 0 st with
      | none => .error .outOfFuel
      | some st2 => .ok st2
    else .ok st

/-- The single-vector overload `ConditionNumber(v, num)` (dot-inl.h:107-154), on
floating-point data. -/
def ConditionNumber1 (A : Arith) (N : ℕ) (v : ℕ → Fp) (num : ℕ) : Except Fault Fp :=
  match ConditionNumber1.accumulate A N v num with
  | .error f => .error f
  | .ok st =>
    ConditionNumber.finish (ReduceCascadedSums st.sum st.sum_err)
      (ReduceCascadedSums st.sum_abs st.sum_abs_err)

/-- `DotKernelCompensated::Update1` for float inputs (dot-inl.h:208-218), with the two
`hn::Add` of line 217 rounding to binary32; returns the new `(sum0, comp0)`. -/
def DotKernelCompensated.Update1 (A : Arith) {N : ℕ} (w0 v0 sum0 comp0 : VF N) :
    VF N × VF N :=
  let p0 := TwoProducts A w0 v0
  let s0 := TwoSums A p0.1 sum0
  (s0.1, Add comp0 (Add p0.2 s0.2))

/-- `DotKernelCompensated::Update1` for bf16 inputs (dot-inl.h:220-231), with the
`hn::Add` of line 230 rounding to binary32; returns the new `(sum0, comp0)`. -/
def DotKernelCompensated.Update1BF (A : Arith) {N : ℕ} (w0 v0 : VBF N) (sum0 comp0 : VF N) :
    VF N × VF N :=
  let prod0 := A.WidenMulPairwiseAdd N w0 v0
  let s0 := TwoSums A prod0 sum0
  (s0.1, Add comp0 s0.2)

/-- The pointer to an array holding the finite values `xs` (zero outside it). -/
def ofList (xs : List ℚ) : ℕ → Fp := fun k => .fin (xs.getD k 0)

end Ieee

/-! ## Lemmas -/

/-- Under an error-free two-sum, one update adds exactly the lanes of `x` to the total
represented by the pair. -/
theorem reduce_update (A : FpArith) (hA : A.SumErrorFree) {N : ℕ} (x s e : VF N) :
    ReduceCascadedSums (UpdateCascadedSums A x s e).1 (UpdateCascadedSums A x s e).2
      = ReduceCascadedSums s e + ReduceSum x := by
  have h : ∀ l : Fin N, (A.TwoSum (s l) (x l)).1 + (e l + (A.TwoSum (s l) (x l)).2)
      = s l + e l + x l := by
    intro l
    have := hA (s l) (x l)
    linarith
  simp only [ReduceCascadedSums, UpdateCascadedSums, TwoSums, ReduceSum, Add]
  rw [← Finset.sum_add_distrib, ← Finset.sum_add_distrib, ← Finset.sum_add_distrib]
  exact Finset.sum_congr rfl (fun l _ => h l)

/-- The lanes of a load add up to the sum of the loaded run. -/
theorem reduceSum_run (N : ℕ) (f : ℕ → ℚ) (pos : ℕ) :
    ReduceSum (fun l : Fin N => f (pos + l.val))
      = ∑ k ∈ Finset.range (pos + N), f k - ∑ k ∈ Finset.range pos, f k := by
  rw [Finset.sum_range_add, ReduceSum, Fin.sum_univ_eq_sum_range (fun k => f (pos + k)) N]
  ring

/-- The lanes of the product of two loads add up to the sum of the products over the run. -/
theorem reduceSum_mul_run (N : ℕ) (w v : ℕ → ℚ) (pos : ℕ) :
    ReduceSum (Mul (Load N w pos) (Load N v pos))
      = ∑ k ∈ Finset.range (pos + N), w k * v k - ∑ k ∈ Finset.range pos, w k * v k :=
  reduceSum_run N (fun k => w k * v k) pos

theorem reduceSum_abs_mul_run (N : ℕ) (w v : ℕ → ℚ) (pos : ℕ) :
    ReduceSum (Abs (Mul (Load N w pos) (Load N v pos)))
      = ∑ k ∈ Finset.range (pos + N), |w k * v k| - ∑ k ∈ Finset.range pos, |w k * v k| :=
  reduceSum_run N (fun k => |w k * v k|) pos

theorem Decompress2_fst (N : ℕ) (p : ℕ → ℚ) (i : ℕ) : (Decompress2 N p i).1 = Load N p i := rfl

theorem Decompress2_snd (N : ℕ) (p : ℕ → ℚ) (i : ℕ) :
    (Decompress2 N p i).2 = Load N p (i + N) := rfl

/-- Signed and absolute totals represented by the accumulators. -/
theorem block_total (A : FpArith) (hA : A.SumErrorFree) (N : ℕ) (w v : ℕ → ℚ) (i : ℕ)
    (st : CondSums N) :
    ReduceCascadedSums (ConditionNumber.block A N w v i st).sum
        (ConditionNumber.block A N w v i st).sum_err
      = ReduceCascadedSums st.sum st.sum_err
        + (∑ k ∈ Finset.range (i + 2 * N), w k * v k - ∑ k ∈ Finset.range i, w k * v k)
    ∧ ReduceCascadedSums (ConditionNumber.block A N w v i st).sum_abs
        (ConditionNumber.block A N w v i st).sum_abs_err
      = ReduceCascadedSums st.sum_abs st.sum_abs_err
        + (∑ k ∈ Finset.range (i + 2 * N), |w k * v k| - ∑ k ∈ Finset.range i, |w k * v k|) := by
  have e2 : i + 2 * N = i + N + N := by ring
  constructor
  · simp only [ConditionNumber.block, reduce_update A hA, Decompress2_fst, Decompress2_snd,
      reduceSum_mul_run, e2]
    ring
  · simp only [ConditionNumber.block, reduce_update A hA, Decompress2_fst, Decompress2_snd,
      reduceSum_abs_mul_run, e2]
    ring

theorem tailStep_total (A : FpArith) (hA : A.SumErrorFree) (N : ℕ) (pw pv : ℕ → ℚ) (pos : ℕ)
    (st : CondSums N) :
    ReduceCascadedSums (ConditionNumber.tailStep A N pw pv pos st).sum
        (ConditionNumber.tailStep A N pw pv pos st).sum_err
      = ReduceCascadedSums st.sum st.sum_err
        + (∑ k ∈ Finset.range (pos + N), pw k * pv k - ∑ k ∈ Finset.range pos, pw k * pv k)
    ∧ ReduceCascadedSums (ConditionNumber.tailStep A N pw pv pos st).sum_abs
        (ConditionNumber.tailStep A N pw pv pos st).sum_abs_err
      = ReduceCascadedSums st.sum_abs st.sum_abs_err
        + (∑ k ∈ Finset.range (pos + N), |pw k * pv k|
            - ∑ k ∈ Finset.range pos, |pw k * pv k|) := by
  constructor
  · simp only [ConditionNumber.tailStep, reduce_update A hA, reduceSum_mul_run]
  · simp only [ConditionNumber.tailStep, reduce_update A hA, reduceSum_abs_mul_run]

theorem mulSz_two (N : ℕ) (h : 2 * N < sizeMod) : mulSz 2 N = 2 * N :=
  Nat.mod_eq_of_lt h

theorem addSz_of_lt (a b : ℕ) (h : a + b < sizeMod) : addSz a b = a + b :=
  Nat.mod_eq_of_lt h

/-- A `size_t` subtraction that does not go below zero is the subtraction of naturals. -/
theorem subSz_of_le (a b : ℕ) (hb : b ≤ a) (ha : a < sizeMod) : subSz a b = a - b := by
  unfold subSz
  have hbm : b % sizeMod = b := Nat.mod_eq_of_lt (by omega)
  rw [hbm]
  have e : a + (sizeMod - b) = a - b + sizeMod := by omega
  rw [e, Nat.add_mod_right]
  exact Nat.mod_eq_of_lt (by omega)

theorem block_congr (A : FpArith) (N : ℕ) (w v w2 v2 : ℕ → ℚ) (i : ℕ) (st : CondSums N)
    (h : ∀ k, k < i + 2 * N → w k = w2 k ∧ v k = v2 k) :
    ConditionNumber.block A N w v i st = ConditionNumber.block A N w2 v2 i st := by
  have hw : Decompress2 N w i = Decompress2 N w2 i := by
    unfold Decompress2
    congr 1 <;> funext l
    · exact (h _ (by have := l.isLt; omega)).1
    · exact (h _ (by have := l.isLt; omega)).1
  have hv : Decompress2 N v i = Decompress2 N v2 i := by
    unfold Decompress2
    congr 1 <;> funext l
    · exact (h _ (by have := l.isLt; omega)).2
    · exact (h _ (by have := l.isLt; omega)).2
  simp only [ConditionNumber.block, hw, hv]

theorem blocks_congr (A : FpArith) (N : ℕ) (w v w2 v2 : ℕ → ℚ) :
    ∀ (q i : ℕ) (st : CondSums N), (∀ k, k < i + q * (2 * N) → w k = w2 k ∧ v k = v2 k) →
      ConditionNumber.blocks A N w v q i st = ConditionNumber.blocks A N w2 v2 q i st := by
  intro q
  induction q with
  | zero => intro i st _; rfl
  | succ q ih =>
    intro i st h
    have e : i + (q + 1) * (2 * N) = i + 2 * N + q * (2 * N) := by ring
    simp only [ConditionNumber.blocks]
    rw [block_congr A N w v w2 v2 i st (fun k hk => h k (by omega))]
    exact ih (i + 2 * N) _ (fun k hk => h k (by omega))

theorem blocks_succ (A : FpArith) (N : ℕ) (w v : ℕ → ℚ) :
    ∀ (q i : ℕ) (st : CondSums N),
      ConditionNumber.blocks A N w v (q + 1) i st
        = ConditionNumber.block A N w v (i + q * (2 * N))
            (ConditionNumber.blocks A N w v q i st) := by
  intro q
  induction q with
  | zero => intro i st; simp [ConditionNumber.blocks]
  | succ q ih =>
    intro i st
    have e : i + (q + 1) * (2 * N) = i + 2 * N + q * (2 * N) := by ring
    rw [ConditionNumber.blocks, ih (i + 2 * N), e]
    rfl

/-- The main loop runs the `q` blocks that fit below `num`; no `size_t` operation wraps. -/
theorem mainLoop_run (A : FpArith) (N : ℕ) (w v : ℕ → ℚ) (num : ℕ) (hN2 : 2 * N < sizeMod)
    (hnum : num < sizeMod) (h2 : 2 * N ≤ num) :
    ∀ (q fuel i : ℕ) (st : CondSums N), i + q * (2 * N) ≤ num →
      num < i + (q + 1) * (2 * N) → q ≤ fuel →
      ConditionNumber.mainLoop A N w v num fuel i st
        = some (i + q * (2 * N), ConditionNumber.blocks A N w v q i st) := by
  have hsub : subSz num (mulSz 2 N) = num - 2 * N := by
    rw [mulSz_two N hN2]; exact subSz_of_le num (2 * N) h2 hnum
  intro q
  induction q with
  | zero =>
    intro fuel i st _ hhi _
    have hc : ¬ i ≤ num - 2 * N := by omega
    cases fuel <;> simp [ConditionNumber.mainLoop, hsub, hc, ConditionNumber.blocks]
  | succ q ih =>
    intro fuel i st hlo hhi hf
    have e : i + (q + 1) * (2 * N) = i + 2 * N + q * (2 * N) := by ring
    have e2 : i + (q + 1 + 1) * (2 * N) = i + 2 * N + (q + 1) * (2 * N) := by ring
    have hc : i ≤ num - 2 * N := by
      have : 0 ≤ q * (2 * N) := Nat.zero_le _
      omega
    have hadd : addSz i (mulSz 2 N) = i + 2 * N := by
      rw [mulSz_two N hN2]; exact addSz_of_lt i (2 * N) (by omega)
    cases fuel with
    | zero => omega
    | succ fuel =>
      simp only [ConditionNumber.mainLoop, hsub, hc, if_true, ConditionNumber.blocks, hadd]
      rw [ih fuel (i + 2 * N) _ (by omega) (by omega) (by omega), e]

/-- The remainder loop, run from position zero on a remainder of one or two vectors; no
`size_t` operation wraps. -/
theorem tailLoop_run (A : FpArith) (N : ℕ) (hN2 : 2 * N < sizeMod) (pw pv : ℕ → ℚ)
    (remaining : ℕ) (h0 : remaining ≠ 0) (h2 : remaining < 2 * N) (st : CondSums N) :
    ConditionNumber.tailLoop A N pw pv remaining remaining 0 st
      = some (if remaining ≤ N then ConditionNumber.tailStep A N pw pv 0 st
          else ConditionNumber.tailStep A N pw pv N (ConditionNumber.tailStep A N pw pv 0 st)) := by
  have a0 : addSz 0 N = N := by
    rw [addSz_of_lt 0 N (by omega), Nat.zero_add]
  have a1 : addSz N N = N + N := addSz_of_lt N N (by omega)
  obtain ⟨f1, rfl⟩ : ∃ f1, remaining = f1 + 1 := ⟨remaining - 1, by omega⟩
  by_cases hr : f1 + 1 ≤ N
  · have hc : ¬ N < f1 + 1 := by omega
    cases f1 <;> simp [ConditionNumber.tailLoop, a0, hr, hc]
  · obtain ⟨f2, rfl⟩ : ∃ f2, f1 = f2 + 1 := ⟨f1 - 1, by omega⟩
    have hc : N < f2 + 1 + 1 := by omega
    have hc2 : ¬ N + N < f2 + 1 + 1 := by omega
    cases f2 <;> simp [ConditionNumber.tailLoop, a0, a1, hr, hc, hc2]

/-- Both loops of the two-vector overload on `q` full blocks and a remainder of `r`
elements: the `q` blocks, then no, one or two remainder steps. -/
theorem accumulate_run (A : FpArith) (N : ℕ) (hN : 0 < N) (hN2 : 2 * N < sizeMod)
    (w v : ℕ → ℚ) (q r : ℕ) (hr : r < 2 * N) (hnum : q * (2 * N) + r < sizeMod) :
    ConditionNumber.accumulate A N w v (q * (2 * N) + r)
      = .ok (if r = 0 then ConditionNumber.blocks A N w v q 0 (CondSums.zero N)
          else if r ≤ N then
            ConditionNumber.tailStep A N (DecompressAndZeroPad w (q * (2 * N)) r)
              (DecompressAndZeroPad v (q * (2 * N)) r) 0
              (ConditionNumber.blocks A N w v q 0 (CondSums.zero N))
          else
            ConditionNumber.tailStep A N (DecompressAndZeroPad w (q * (2 * N)) r)
              (DecompressAndZeroPad v (q * (2 * N)) r) N
              (ConditionNumber.tailStep A N (DecompressAndZeroPad w (q * (2 * N)) r)
                (DecompressAndZeroPad v (q * (2 * N)) r) 0
                (ConditionNumber.blocks A N w v q 0 (CondSums.zero N)))) := by
  have hm : (if q * (2 * N) + r ≥ 2 * N then
        ConditionNumber.mainLoop A N w v (q * (2 * N) + r) (q * (2 * N) + r) 0 (CondSums.zero N)
      else some (0, CondSums.zero N))
      = some (q * (2 * N), ConditionNumber.blocks A N w v q 0 (CondSums.zero N)) := by
    by_cases h2 : q * (2 * N) + r ≥ 2 * N
    · rw [if_pos h2]
      have hq : q ≤ q * (2 * N) + r := by
        have : q ≤ q * (2 * N) := Nat.le_mul_of_pos_right q (by omega)
        omega
      have := mainLoop_run A N w v (q * (2 * N) + r) hN2 hnum h2 q (q * (2 * N) + r) 0
        (CondSums.zero N) (by omega) (by
          have : (q + 1) * (2 * N) = q * (2 * N) + 2 * N := by ring
          omega) hq
      rw [this, Nat.zero_add]
    · rw [if_neg h2]
      have hq0 : q = 0 := by
        by_contra hq
        have : 2 * N ≤ q * (2 * N) := Nat.le_mul_of_pos_left (2 * N) (Nat.pos_of_ne_zero hq)
        omega
      subst hq0
      simp [ConditionNumber.blocks]
  have hrem : subSz (q * (2 * N) + r) (q * (2 * N)) = r := by
    rw [subSz_of_le _ _ (by omega) hnum]; omega
  unfold ConditionNumber.accumulate
  simp only [mulSz_two N hN2, hm, hrem]
  by_cases h0 : r = 0
  · simp [h0, hN.ne']
  · have hlt : r < 2 * N := hr
    simp only [hlt, not_true_eq_false, if_false, ne_eq, h0, not_false_eq_true, if_true]
    rw [tailLoop_run A N hN2 _ _ r h0 hr]

/-- Extending with zeros and summing further changes no sum of terms. -/
theorem sum_zeroExtend (f : ℕ → ℚ) (g : ℕ → ℚ) (num num2 : ℕ) (h : num ≤ num2)
    (hg : ∀ k, g k = if k < num then f k else 0) :
    ∑ k ∈ Finset.range num2, g k = ∑ k ∈ Finset.range num, f k := by
  rw [← Finset.sum_range_add_sum_Ico g h]
  rw [Finset.sum_eq_zero (s := Finset.Ico num num2)]
  · rw [add_zero]
    apply Finset.sum_congr rfl
    intro k hk
    rw [hg k, if_pos (Finset.mem_range.mp hk)]
  · intro k hk
    rw [hg k, if_neg (Nat.not_lt.mpr (Finset.mem_Ico.mp hk).1)]

/-- Under an error-free two-sum, `q` blocks from index `i` add every term of the `q`
blocks exactly once. -/
theorem blocks_total (A : FpArith) (hA : A.SumErrorFree) (N : ℕ) (w v : ℕ → ℚ) :
    ∀ (q i : ℕ) (st : CondSums N),
      ReduceCascadedSums (ConditionNumber.blocks A N w v q i st).sum
          (ConditionNumber.blocks A N w v q i st).sum_err
          + ∑ k ∈ Finset.range i, w k * v k
        = ReduceCascadedSums st.sum st.sum_err + ∑ k ∈ Finset.range (i + q * (2 * N)), w k * v k
      ∧ ReduceCascadedSums (ConditionNumber.blocks A N w v q i st).sum_abs
          (ConditionNumber.blocks A N w v q i st).sum_abs_err
          + ∑ k ∈ Finset.range i, |w k * v k|
        = ReduceCascadedSums st.sum_abs st.sum_abs_err
          + ∑ k ∈ Finset.range (i + q * (2 * N)), |w k * v k| := by
  intro q
  induction q with
  | zero => intro i st; simp [ConditionNumber.blocks]
  | succ q ih =>
    intro i st
    have e : i + (q + 1) * (2 * N) = i + 2 * N + q * (2 * N) := by ring
    obtain ⟨hs, ha⟩ := ih (i + 2 * N) (ConditionNumber.block A N w v i st)
    obtain ⟨bs, ba⟩ := block_total A hA N w v i st
    rw [bs] at hs
    rw [ba] at ha
    simp only [ConditionNumber.blocks, e]
    constructor <;> linarith

/-- The terms of a zero-padded remainder of `r` elements from offset `i`, summed over at
least `r` positions, add up to the terms of the input between `i` and `i + r`. -/
theorem sum_pad (f g : ℕ → ℚ) (i r n : ℕ) (hn : r ≤ n)
    (hg : ∀ k, g k = if k < r then f (i + k) else 0) :
    ∑ k ∈ Finset.range n, g k
      = ∑ k ∈ Finset.range (i + r), f k - ∑ k ∈ Finset.range i, f k := by
  rw [sum_zeroExtend (fun k => f (i + k)) g r n hn hg, Finset.sum_range_add]
  ring

/-- With at least one lane, representable sizes and an error-free two-sum, both loops of
the two-vector overload finish and the accumulators represent the exact signed and
absolute sums of the products. -/
theorem accumulate_total (A : FpArith) (hA : A.SumErrorFree) (N : ℕ) (hN : 0 < N)
    (hN2 : 2 * N < sizeMod) (w v : ℕ → ℚ) (num : ℕ) (hnum : num < sizeMod) :
    ∃ st : CondSums N, ConditionNumber.accumulate A N w v num = .ok st
      ∧ ReduceCascadedSums st.sum st.sum_err = ∑ k ∈ Finset.range num, w k * v k
      ∧ ReduceCascadedSums st.sum_abs st.sum_abs_err = ∑ k ∈ Finset.range num, |w k * v k| := by
  have hB : 0 < 2 * N := by omega
  have hr : num % (2 * N) < 2 * N := Nat.mod_lt _ hB
  have hq : num = num / (2 * N) * (2 * N) + num % (2 * N) := by
    rw [Nat.mul_comm]; exact (Nat.div_add_mod num (2 * N)).symm
  generalize num / (2 * N) = q at hq
  generalize num % (2 * N) = r at hq hr
  subst hq
  have hz0 : ReduceCascadedSums (CondSums.zero N).sum (CondSums.zero N).sum_err = 0 := by
    simp [ReduceCascadedSums, ReduceSum, CondSums.zero, Zero]
  have hz1 : ReduceCascadedSums (CondSums.zero N).sum_abs (CondSums.zero N).sum_abs_err = 0 := by
    simp [ReduceCascadedSums, ReduceSum, CondSums.zero, Zero]
  obtain ⟨bs, ba⟩ := blocks_total A hA N w v q 0 (CondSums.zero N)
  simp only [Finset.range_zero, Finset.sum_empty, add_zero, hz0, hz1, zero_add] at bs ba
  have gs : ∀ k, DecompressAndZeroPad w (q * (2 * N)) r k * DecompressAndZeroPad v (q * (2 * N)) r k
      = if k < r then (fun j => w j * v j) (q * (2 * N) + k) else 0 := by
    intro k
    by_cases hk : k < r <;> simp [DecompressAndZeroPad, hk]
  have ga : ∀ k,
      |DecompressAndZeroPad w (q * (2 * N)) r k * DecompressAndZeroPad v (q * (2 * N)) r k|
      = if k < r then (fun j => |w j * v j|) (q * (2 * N) + k) else 0 := by
    intro k
    by_cases hk : k < r <;> simp [DecompressAndZeroPad, hk]
  refine ⟨_, accumulate_run A N hN hN2 w v q r hr hnum, ?_, ?_⟩
  · by_cases h0 : r = 0
    · rw [if_pos h0, bs, h0, Nat.add_zero]
    · rw [if_neg h0]
      by_cases hle : r ≤ N
      · rw [if_pos hle, (tailStep_total A hA N _ _ 0 _).1, bs, Nat.zero_add,
          sum_pad (fun j => w j * v j) _ (q * (2 * N)) r N hle gs]
        simp
      · rw [if_neg hle, (tailStep_total A hA N _ _ N _).1, (tailStep_total A hA N _ _ 0 _).1, bs,
          Nat.zero_add, sum_pad (fun j => w j * v j) _ (q * (2 * N)) r (N + N) (by omega) gs]
        simp only [Finset.range_zero, Finset.sum_empty]
        ring
  · by_cases h0 : r = 0
    · rw [if_pos h0, ba, h0, Nat.add_zero]
    · rw [if_neg h0]
      by_cases hle : r ≤ N
      · rw [if_pos hle, (tailStep_total A hA N _ _ 0 _).2, ba, Nat.zero_add,
          sum_pad (fun j => |w j * v j|) _ (q * (2 * N)) r N hle ga]
        simp
      · rw [if_neg hle, (tailStep_total A hA N _ _ N _).2, (tailStep_total A hA N _ _ 0 _).2, ba,
          Nat.zero_add, sum_pad (fun j => |w j * v j|) _ (q * (2 * N)) r (N + N) (by omega) ga]
        simp only [Finset.range_zero, Finset.sum_empty]
        ring

theorem block1_eq_ones (A : FpArith) (N : ℕ) (v : ℕ → ℚ) (i : ℕ) (st : CondSums N) :
    ConditionNumber1.block A N v i st = ConditionNumber.block A N (fun _ => 1) v i st := by
  have h1 : Mul (Decompress2 N (fun _ => (1 : ℚ)) i).1 (Decompress2 N v i).1
      = (Decompress2 N v i).1 := by
    funext l; simp [Mul, Decompress2]
  have h2 : Mul (Decompress2 N (fun _ => (1 : ℚ)) i).2 (Decompress2 N v i).2
      = (Decompress2 N v i).2 := by
    funext l; simp [Mul, Decompress2]
  simp only [ConditionNumber1.block, ConditionNumber.block, h1, h2]

theorem mainLoop1_eq_ones (A : FpArith) (N : ℕ) (v : ℕ → ℚ) (num : ℕ) :
    ∀ (fuel i : ℕ) (st : CondSums N),
      ConditionNumber1.mainLoop A N v num fuel i st
        = ConditionNumber.mainLoop A N (fun _ => 1) v num fuel i st := by
  intro fuel
  induction fuel with
  | zero => intro i st; rfl
  | succ fuel ih =>
    intro i st
    simp only [ConditionNumber1.mainLoop, ConditionNumber.mainLoop, ih, block1_eq_ones]

theorem tailStep1_eq_ones (A : FpArith) (N : ℕ) (v : ℕ → ℚ) (i remaining pos : ℕ)
    (st : CondSums N) :
    ConditionNumber1.tailStep A N (DecompressAndZeroPad v i remaining) pos st
      = ConditionNumber.tailStep A N (DecompressAndZeroPad (fun _ => 1) i remaining)
          (DecompressAndZeroPad v i remaining) pos st := by
  have h : Mul (Load N (DecompressAndZeroPad (fun _ => (1 : ℚ)) i remaining) pos)
      (Load N (DecompressAndZeroPad v i remaining) pos)
      = Load N (DecompressAndZeroPad v i remaining) pos := by
    funext l
    by_cases hk : pos + l.val < remaining <;> simp [Mul, Load, DecompressAndZeroPad, hk]
  simp only [ConditionNumber1.tailStep, ConditionNumber.tailStep, h]

theorem tailLoop1_eq_ones (A : FpArith) (N : ℕ) (v : ℕ → ℚ) (i remaining : ℕ) :
    ∀ (fuel pos : ℕ) (st : CondSums N),
      ConditionNumber1.tailLoop A N (DecompressAndZeroPad v i remaining) remaining fuel pos st
        = ConditionNumber.tailLoop A N (DecompressAndZeroPad (fun _ => 1) i remaining)
            (DecompressAndZeroPad v i remaining) remaining fuel pos st := by
  intro fuel
  induction fuel with
  | zero => intro pos st; rfl
  | succ fuel ih =>
    intro pos st
    simp only [ConditionNumber1.tailLoop, ConditionNumber.tailLoop, ih, tailStep1_eq_ones]

/-- The accumulators of the single-vector overload are those of the two-vector overload
run with an all-ones weight vector. -/
theorem accumulate1_eq_ones (A : FpArith) (N : ℕ) (v : ℕ → ℚ) (num : ℕ) :
    ConditionNumber1.accumulate A N v num
      = ConditionNumber.accumulate A N (fun _ => 1) v num := by
  simp only [ConditionNumber1.accumulate, ConditionNumber.accumulate, mainLoop1_eq_ones,
    tailLoop1_eq_ones]

theorem ConditionNumber1_eq_ones (A : FpArith) (N : ℕ) (v : ℕ → ℚ) (num : ℕ) :
    ConditionNumber1 A N v num = ConditionNumber A N (fun _ => 1) v num := by
  simp only [ConditionNumber1, ConditionNumber, accumulate1_eq_ones]

/-- The last lines of `ConditionNumber` on a non-zero signed sum and a non-negative
absolute sum: the quotient is returned. -/
theorem finish_of_ne_zero (r r_abs : ℚ) (hr : r ≠ 0) (ha : 0 ≤ r_abs) :
    ConditionNumber.finish r r_abs = .ok ((2 * r_abs / |r| : ℚ) : WithTop ℚ) := by
  have hd : |r| ≠ 0 := abs_ne_zero.mpr hr
  have hq : 0 ≤ 2 * r_abs / |r| := div_nonneg (by linarith) (abs_nonneg r)
  simp [ConditionNumber.finish, fdiv, hd, hr, hq]

theorem finish_zero (r_abs : ℚ) : ConditionNumber.finish 0 r_abs = .ok ⊤ := by
  simp [ConditionNumber.finish]

theorem floorArith_sumErrorFree : floorArith.SumErrorFree := by
  intro a b
  simp [floorArith]

theorem floorArith_prodErrorFree : floorArith.ProdErrorFree := by
  intro a b
  simp [floorArith]

theorem exactArith_sumErrorFree : exactArith.SumErrorFree := by
  intro a b
  simp [exactArith]

theorem exactArith_zeroExact : exactArith.ZeroExact := by
  intro a
  simp [exactArith]

theorem le_roundUpTo (num m : ℕ) (hm : 0 < m) : num ≤ roundUpTo num m := by
  unfold roundUpTo
  have h1 := Nat.div_add_mod (num + m - 1) m
  have h2 := Nat.mod_lt (num + m - 1) hm
  have h3 : (num + m - 1) / m * m = m * ((num + m - 1) / m) := Nat.mul_comm _ _
  omega

theorem roundUpTo_eq (q r m : ℕ) (hr : r < m) :
    roundUpTo (q * m + r) m = if r = 0 then q * m else (q + 1) * m := by
  unfold roundUpTo
  by_cases h0 : r = 0
  · rw [if_pos h0]
    have : (q * m + r + m - 1) / m = q :=
      Nat.div_eq_of_lt_le (by omega) (by
        have : (q + 1) * m = q * m + m := by ring
        omega)
    rw [this]
  · rw [if_neg h0]
    have : (q * m + r + m - 1) / m = q + 1 :=
      Nat.div_eq_of_lt_le (by
        have : (q + 1) * m = q * m + m := by ring
        omega) (by
        have : (q + 1 + 1) * m = q * m + m + m := by ring
        omega)
    rw [this]

/-- When adding zero is exact, updating a cascaded sum with the zero vector changes
nothing. -/
theorem update_zero (A : FpArith) (hZ : A.ZeroExact) {N : ℕ} (s e : VF N) :
    UpdateCascadedSums A (Zero N) s e = (s, e) := by
  have h : ∀ a : ℚ, A.TwoSum a 0 = (a, 0) := hZ
  unfold UpdateCascadedSums TwoSums Add Zero
  simp only [h, add_zero]

/-- The zero-padded remainder buffer at position `k` is the zero-extended input at
`i + k`. -/
theorem pad_eq_zeroExtend (p : ℕ → ℚ) (i num k : ℕ) (hi : i ≤ num) :
    DecompressAndZeroPad p i (num - i) k = zeroExtend p num (i + k) := by
  unfold DecompressAndZeroPad zeroExtend
  by_cases hk : k < num - i
  · rw [if_pos hk, if_pos (by omega)]
  · rw [if_neg hk, if_neg (by omega)]

/-- The block of the zero-extended inputs at `i`, in terms of the padded remainder
buffers: the two remainder steps in sequence. -/
theorem block_eq_tailSteps (A : FpArith) (N : ℕ) (w v : ℕ → ℚ) (i num : ℕ) (hi : i ≤ num)
    (st : CondSums N) :
    ConditionNumber.block A N (zeroExtend w num) (zeroExtend v num) i st
      = ConditionNumber.tailStep A N (DecompressAndZeroPad w i (num - i))
          (DecompressAndZeroPad v i (num - i)) N
          (ConditionNumber.tailStep A N (DecompressAndZeroPad w i (num - i))
            (DecompressAndZeroPad v i (num - i)) 0 st) := by
  have l0 : ∀ p : ℕ → ℚ, Load N (DecompressAndZeroPad p i (num - i)) 0
      = (Decompress2 N (zeroExtend p num) i).1 := by
    intro p; funext l
    simp only [Load, Decompress2, pad_eq_zeroExtend p i num _ hi, Nat.zero_add]
  have l1 : ∀ p : ℕ → ℚ, Load N (DecompressAndZeroPad p i (num - i)) N
      = (Decompress2 N (zeroExtend p num) i).2 := by
    intro p; funext l
    simp only [Load, Decompress2, pad_eq_zeroExtend p i num _ hi, Nat.add_assoc]
  simp only [ConditionNumber.block, ConditionNumber.tailStep, l0, l1]

/-- When the remainder fits into one vector, the second remainder step would add the zero
vector, which changes nothing if adding zero is exact. -/
theorem tailStep_second_zero (A : FpArith) (hZ : A.ZeroExact) (N : ℕ) (w v : ℕ → ℚ)
    (i remaining : ℕ) (hr : remaining ≤ N) (st : CondSums N) :
    ConditionNumber.tailStep A N (DecompressAndZeroPad w i remaining)
      (DecompressAndZeroPad v i remaining) N st = st := by
  have hm : Mul (Load N (DecompressAndZeroPad w i remaining) N)
      (Load N (DecompressAndZeroPad v i remaining) N) = Zero N := by
    funext l
    have : ¬ N + l.val < remaining := by omega
    simp [Mul, Load, DecompressAndZeroPad, Zero, this]
  have ha : Abs (Zero N) = Zero N := by
    funext l; simp [Abs, Zero]
  simp only [ConditionNumber.tailStep, hm, ha, update_zero A hZ]

theorem ConditionNumber_exact (A : FpArith) (hA : A.SumErrorFree) (N : ℕ) (hN : 0 < N)
    (hN2 : 2 * N < sizeMod) (w v : ℕ → ℚ) (num : ℕ) (hnum : num < sizeMod) :
    ConditionNumber A N w v num
      = ConditionNumber.finish (∑ k ∈ Finset.range num, w k * v k)
          (∑ k ∈ Finset.range num, |w k * v k|) := by
  obtain ⟨st, hacc, hs, ha⟩ := accumulate_total A hA N hN hN2 w v num hnum
  simp only [ConditionNumber, hacc, hs, ha]

/-- When adding zero is exact, the accumulators after both loops are the same for the
given inputs and for their zero extension to the next multiple of `2 * N` elements. -/
theorem accumulate_padded (A : FpArith) (hZ : A.ZeroExact) (N : ℕ) (hN : 0 < N)
    (hN2 : 2 * N < sizeMod) (w v : ℕ → ℚ) (num : ℕ)
    (hnum : roundUpTo num (2 * N) < sizeMod) :
    ConditionNumber.accumulate A N w v num
      = ConditionNumber.accumulate A N (zeroExtend w num) (zeroExtend v num)
          (roundUpTo num (2 * N)) := by
  have hB : 0 < 2 * N := by omega
  have hr : num % (2 * N) < 2 * N := Nat.mod_lt _ hB
  have hnum1 : num < sizeMod := lt_of_le_of_lt (le_roundUpTo num (2 * N) hB) hnum
  have hq : num = num / (2 * N) * (2 * N) + num % (2 * N) := by
    rw [Nat.mul_comm]; exact (Nat.div_add_mod num (2 * N)).symm
  generalize num / (2 * N) = q at hq
  generalize num % (2 * N) = r at hq hr
  have hext : ∀ k, k < 0 + q * (2 * N) →
      w k = zeroExtend w num k ∧ v k = zeroExtend v num k := by
    intro k hk
    have : k < num := by omega
    simp [zeroExtend, this]
  have hblocks := blocks_congr A N w v (zeroExtend w num) (zeroExtend v num) q 0
    (CondSums.zero N) hext
  have hround : roundUpTo num (2 * N) = if r = 0 then q * (2 * N) else (q + 1) * (2 * N) := by
    rw [hq]; exact roundUpTo_eq q r (2 * N) hr
  rw [hround] at hnum ⊢
  have e1 := accumulate_run A N hN hN2 w v q r hr (by omega)
  rw [← hq] at e1
  by_cases h0 : r = 0
  · rw [if_pos h0] at hnum ⊢
    have e2 := accumulate_run A N hN hN2 (zeroExtend w num) (zeroExtend v num) q 0 hB
      (by omega)
    rw [Nat.add_zero] at e2
    rw [e1, e2, if_pos h0, if_pos rfl, hblocks]
  · rw [if_neg h0] at hnum ⊢
    have e2 := accumulate_run A N hN hN2 (zeroExtend w num) (zeroExtend v num) (q + 1) 0 hB
      (by omega)
    rw [Nat.add_zero] at e2
    have hi : q * (2 * N) ≤ num := by omega
    have hsub : num - q * (2 * N) = r := by omega
    have hbt := block_eq_tailSteps A N w v (q * (2 * N)) num hi
      (ConditionNumber.blocks A N w v q 0 (CondSums.zero N))
    rw [hsub] at hbt
    rw [e1, e2, if_neg h0, if_pos rfl, blocks_succ, ← hblocks, Nat.zero_add, hbt]
    by_cases hle : r ≤ N
    · rw [if_pos hle, tailStep_second_zero A hZ N w v _ r hle]
    · rw [if_neg hle]

/-- The element update on a zero gradient and zero moments. -/
theorem element_zero (sqrt : ℚ → ℚ) (hs : sqrt 0 = 0) (alpha beta1 beta2 epsilon : ℚ) (t : ℕ)
    (w : ℚ) :
    AdamUpdate.element sqrt alpha beta1 beta2 epsilon t 0 w 0 0
      = if 1 - beta1 ^ t = 0 ∨ 1 - beta2 ^ t = 0 ∨ epsilon = 0 then none
        else some (w, 0, 0) := by
  by_cases h1 : 1 - beta1 ^ t = 0
  · simp [AdamUpdate.element, fdiv, h1]
  · by_cases h2 : 1 - beta2 ^ t = 0
    · simp [AdamUpdate.element, fdiv, h1, h2]
    · by_cases h3 : epsilon = 0
      · simp [AdamUpdate.element, fdiv, h1, h2, h3, hs]
      · simp [AdamUpdate.element, fdiv, h1, h2, h3, hs]

/-- One tensor with a zero gradient and zero moments. -/
theorem tensor_zero (sqrt : ℚ → ℚ) (hs : sqrt 0 = 0) (alpha beta1 beta2 epsilon : ℚ) (t : ℕ)
    (h1 : beta1 ^ t ≠ 1) (h2 : beta2 ^ t ≠ 1) (he : epsilon ≠ 0) :
    ∀ w : List ℚ,
      AdamUpdate.tensor sqrt alpha beta1 beta2 epsilon t (w.map (fun _ => 0)) w
          (w.map (fun _ => 0)) (w.map (fun _ => 0))
        = .ok (w, w.map (fun _ => 0), w.map (fun _ => 0)) := by
  have hc : ¬ (1 - beta1 ^ t = 0 ∨ 1 - beta2 ^ t = 0 ∨ epsilon = 0) := by
    rintro (h | h | h)
    · exact h1 (by linarith)
    · exact h2 (by linarith)
    · exact he h
  intro w
  induction w with
  | nil => rfl
  | cons w0 ws ih =>
    simp only [List.map_cons, AdamUpdate.tensor, element_zero sqrt hs, if_neg hc, ih]

/-- Under an error-free two-sum, assimilating B into A gives a pair that represents the
total of A plus the total of B. -/
theorem reduce_assimilate (A : FpArith) (hA : A.SumErrorFree) {N : ℕ}
    (other_sum other_comp sum comp : VF N) :
    ReduceCascadedSums (AssimilateCascadedSums A other_sum other_comp sum comp).1
        (AssimilateCascadedSums A other_sum other_comp sum comp).2
      = ReduceCascadedSums sum comp + ReduceCascadedSums other_sum other_comp := by
  have h := reduce_update A hA other_sum sum comp
  simp only [ReduceCascadedSums, AssimilateCascadedSums, ReduceSum, Add,
    Finset.sum_add_distrib] at h ⊢
  linarith

/-- The main loop of the two-vector overload runs its body at the indices of the loop
header, in order. -/
theorem mainLoop_eq_indices (A : FpArith) (N : ℕ) (w v : ℕ → ℚ) (num : ℕ) :
    ∀ (fuel i : ℕ) (st : CondSums N),
      ConditionNumber.mainLoop A N w v num fuel i st
        = (ConditionNumber.mainIndices N num fuel i).map
            (fun r => (r.2, r.1.foldl (fun s k => ConditionNumber.block A N w v k s) st)) := by
  intro fuel
  induction fuel with
  | zero =>
    intro i st
    by_cases hc : i ≤ subSz num (mulSz 2 N) <;>
      simp [ConditionNumber.mainLoop, ConditionNumber.mainIndices, hc]
  | succ fuel ih =>
    intro i st
    by_cases hc : i ≤ subSz num (mulSz 2 N)
    · simp only [ConditionNumber.mainLoop, ConditionNumber.mainIndices, hc, if_true, ih]
      cases ConditionNumber.mainIndices N num fuel (addSz i (mulSz 2 N)) <;> simp
    · simp [ConditionNumber.mainLoop, ConditionNumber.mainIndices, hc]

/-- The main loop of the single-vector overload runs its body at the indices of the loop
header, in order. -/
theorem mainLoop1_eq_indices (A : FpArith) (N : ℕ) (v : ℕ → ℚ) (num : ℕ) :
    ∀ (fuel i : ℕ) (st : CondSums N),
      ConditionNumber1.mainLoop A N v num fuel i st
        = (ConditionNumber.mainIndices N num fuel i).map
            (fun r => (r.2, r.1.foldl (fun s k => ConditionNumber1.block A N v k s) st)) := by
  intro fuel
  induction fuel with
  | zero =>
    intro i st
    by_cases hc : i ≤ subSz num (mulSz 2 N) <;>
      simp [ConditionNumber1.mainLoop, ConditionNumber.mainIndices, hc]
  | succ fuel ih =>
    intro i st
    by_cases hc : i ≤ subSz num (mulSz 2 N)
    · simp only [ConditionNumber1.mainLoop, ConditionNumber.mainIndices, hc, if_true, ih]
      cases ConditionNumber.mainIndices N num fuel (addSz i (mulSz 2 N)) <;> simp
    · simp [ConditionNumber1.mainLoop, ConditionNumber.mainIndices, hc]

/-- The remainder loop of the two-vector overload runs its body at the positions of the
loop header, in order. -/
theorem tailLoop_eq_indices (A : FpArith) (N : ℕ) (pw pv : ℕ → ℚ) (remaining : ℕ) :
    ∀ (fuel pos : ℕ) (st : CondSums N),
      ConditionNumber.tailLoop A N pw pv remaining fuel pos st
        = (ConditionNumber.tailIndices N remaining fuel pos).map
            (fun r => r.foldl (fun s k => ConditionNumber.tailStep A N pw pv k s) st) := by
  intro fuel
  induction fuel with
  | zero =>
    intro pos st
    by_cases hc : pos < remaining <;>
      simp [ConditionNumber.tailLoop, ConditionNumber.tailIndices, hc]
  | succ fuel ih =>
    intro pos st
    by_cases hc : pos < remaining
    · simp only [ConditionNumber.tailLoop, ConditionNumber.tailIndices, hc, if_true, ih]
      cases ConditionNumber.tailIndices N remaining fuel (addSz pos N) <;> simp
    · simp [ConditionNumber.tailLoop, ConditionNumber.tailIndices, hc]

/-- The remainder loop of the single-vector overload runs its body at the positions of the
loop header, in order. -/
theorem tailLoop1_eq_indices (A : FpArith) (N : ℕ) (pv : ℕ → ℚ) (remaining : ℕ) :
    ∀ (fuel pos : ℕ) (st : CondSums N),
      ConditionNumber1.tailLoop A N pv remaining fuel pos st
        = (ConditionNumber.tailIndices N remaining fuel pos).map
            (fun r => r.foldl (fun s k => ConditionNumber1.tailStep A N pv k s) st) := by
  intro fuel
  induction fuel with
  | zero =>
    intro pos st
    by_cases hc : pos < remaining <;>
      simp [ConditionNumber1.tailLoop, ConditionNumber.tailIndices, hc]
  | succ fuel ih =>
    intro pos st
    by_cases hc : pos < remaining
    · simp only [ConditionNumber1.tailLoop, ConditionNumber.tailIndices, hc, if_true, ih]
      cases ConditionNumber.tailIndices N remaining fuel (addSz pos N) <;> simp
    · simp [ConditionNumber1.tailLoop, ConditionNumber.tailIndices, hc]

/-- With representable sizes and the guard `2 * N ≤ num`, the loop header visits
`i, i + 2 * N, ...`, the `q` indices whose block fits below `num`, and no `size_t`
operation wraps. -/
theorem mainIndices_run (N num : ℕ) (hN2 : 2 * N < sizeMod) (hnum : num < sizeMod)
    (h2 : 2 * N ≤ num) :
    ∀ (q fuel i : ℕ), i + q * (2 * N) ≤ num → num < i + (q + 1) * (2 * N) → q ≤ fuel →
      ConditionNumber.mainIndices N num fuel i
        = some ((List.range q).map (fun k => i + k * (2 * N)), i + q * (2 * N)) := by
  have hsub : subSz num (mulSz 2 N) = num - 2 * N := by
    rw [mulSz_two N hN2]; exact subSz_of_le num (2 * N) h2 hnum
  intro q
  induction q with
  | zero =>
    intro fuel i _ hhi _
    have hc : ¬ i ≤ num - 2 * N := by omega
    cases fuel <;> simp [ConditionNumber.mainIndices, hsub, hc]
  | succ q ih =>
    intro fuel i hlo hhi hf
    have e : i + (q + 1) * (2 * N) = i + 2 * N + q * (2 * N) := by ring
    have e2 : i + (q + 1 + 1) * (2 * N) = i + 2 * N + (q + 1) * (2 * N) := by ring
    have hc : i ≤ num - 2 * N := by
      have : 0 ≤ q * (2 * N) := Nat.zero_le _
      omega
    have hadd : addSz i (mulSz 2 N) = i + 2 * N := by
      rw [mulSz_two N hN2]; exact addSz_of_lt i (2 * N) (by omega)
    cases fuel with
    | zero => omega
    | succ fuel =>
      simp only [ConditionNumber.mainIndices, hsub, hc, if_true, hadd]
      rw [ih fuel (i + 2 * N) (by omega) (by omega) (by omega), e]
      simp only [List.range_succ_eq_map, List.map_cons, List.map_map, Nat.zero_mul,
        Nat.add_zero]
      congr 3
      apply List.map_congr_left
      intro k _
      simp only [Function.comp, Nat.succ_eq_add_one]
      ring

/-- With a representable `2 * N`, the header of the remainder loop on a remainder of one or
two vectors visits position `0`, and position `N` when the remainder exceeds one vector. -/
theorem tailIndices_run (N : ℕ) (hN2 : 2 * N < sizeMod) (remaining : ℕ) (h0 : remaining ≠ 0)
    (h2 : remaining < 2 * N) :
    ConditionNumber.tailIndices N remaining remaining 0
      = some (if remaining ≤ N then [0] else [0, N]) := by
  have a0 : addSz 0 N = N := by
    rw [addSz_of_lt 0 N (by omega), Nat.zero_add]
  have a1 : addSz N N = N + N := addSz_of_lt N N (by omega)
  obtain ⟨f1, rfl⟩ : ∃ f1, remaining = f1 + 1 := ⟨remaining - 1, by omega⟩
  by_cases hr : f1 + 1 ≤ N
  · have hc : ¬ N < f1 + 1 := by omega
    cases f1 <;> simp [ConditionNumber.tailIndices, a0, hr, hc]
  · obtain ⟨f2, rfl⟩ : ∃ f2, f1 = f2 + 1 := ⟨f1 - 1, by omega⟩
    have hc : N < f2 + 1 + 1 := by omega
    have hc2 : ¬ N + N < f2 + 1 + 1 := by omega
    cases f2 <;> simp [ConditionNumber.tailIndices, a0, a1, hr, hc, hc2]
/-- The loop header from index zero, under the guard `2 * N ≤ num`: it visits the
`num / (2 * N)` multiples of `2 * N` whose block fits and exits at
`2 * N * (num / (2 * N))`, for every fuel of at least `num / (2 * N)`. -/
theorem mainIndices_zero (N num : ℕ) (hN : 0 < N) (hN2 : 2 * N < sizeMod)
    (hnum : num < sizeMod) (h2 : 2 * N ≤ num) (fuel : ℕ) (hf : num / (2 * N) ≤ fuel) :
    ConditionNumber.mainIndices N num fuel 0
      = some ((List.range (num / (2 * N))).map (fun k => k * (2 * N)),
          2 * N * (num / (2 * N))) := by
  have hB : 0 < 2 * N := by omega
  have hlo : 0 + num / (2 * N) * (2 * N) ≤ num := by
    rw [Nat.zero_add]; exact Nat.div_mul_le_self num (2 * N)
  have hhi : num < 0 + (num / (2 * N) + 1) * (2 * N) := by
    rw [Nat.zero_add, Nat.mul_comm]; exact Nat.lt_mul_div_succ num hB
  rw [mainIndices_run N num hN2 hnum h2 (num / (2 * N)) fuel 0 hlo hhi hf]
  simp only [Nat.zero_add, Nat.mul_comm]

/-- The index at which the main loop ends is at most `num`, and what is left is
`num % (2 * N)`, computed without wrapping. -/
theorem remaining_eq_mod (N num : ℕ) (hnum : num < sizeMod) :
    2 * N * (num / (2 * N)) ≤ num
    ∧ subSz num (2 * N * (num / (2 * N))) = num - 2 * N * (num / (2 * N))
    ∧ num - 2 * N * (num / (2 * N)) = num % (2 * N) := by
  have h1 : 2 * N * (num / (2 * N)) ≤ num := Nat.mul_div_le num (2 * N)
  have h3 := Nat.div_add_mod num (2 * N)
  exact ⟨h1, subSz_of_le _ _ h1 hnum, by omega⟩

/-- With the guard of the source in front, the main loop of either overload ends at index
`2 * N * (num / (2 * N))`, after running its body at the multiples of `2 * N` below it. -/
theorem guarded_mainIndices (N num : ℕ) (hN : 0 < N) (hN2 : 2 * N < sizeMod)
    (hnum : num < sizeMod) :
    (if num ≥ mulSz 2 N then ConditionNumber.mainIndices N num num 0 else some ([], 0))
      = some ((List.range (num / (2 * N))).map (fun k => k * (2 * N)),
          2 * N * (num / (2 * N))) := by
  rw [mulSz_two N hN2]
  by_cases h2 : num ≥ 2 * N
  · rw [if_pos h2]
    exact mainIndices_zero N num hN hN2 hnum h2 num (Nat.div_le_self _ _)
  · rw [if_neg h2]
    have hq : num / (2 * N) = 0 := Nat.div_eq_of_lt (by omega)
    simp [hq]

/-- The zero-padded remainder depends only on the values it decompresses. -/
theorem pad_congr (p p2 : ℕ → ℚ) (i remaining : ℕ)
    (h : ∀ k, k < i + remaining → p k = p2 k) :
    DecompressAndZeroPad p i remaining = DecompressAndZeroPad p2 i remaining := by
  funext k
  unfold DecompressAndZeroPad
  by_cases hk : k < remaining
  · rw [if_pos hk, if_pos hk, h (i + k) (by omega)]
  · rw [if_neg hk, if_neg hk]

/-- With at least one lane and representable sizes, the accumulators of the two-vector
overload depend only on the first `num` values behind each pointer. -/
theorem accumulate_congr (A : FpArith) (N : ℕ) (hN : 0 < N) (hN2 : 2 * N < sizeMod)
    (w v w2 v2 : ℕ → ℚ) (num : ℕ) (hnum : num < sizeMod)
    (h : ∀ k, k < num → w k = w2 k ∧ v k = v2 k) :
    ConditionNumber.accumulate A N w v num = ConditionNumber.accumulate A N w2 v2 num := by
  have hB : 0 < 2 * N := by omega
  have hr : num % (2 * N) < 2 * N := Nat.mod_lt _ hB
  have hq : num = num / (2 * N) * (2 * N) + num % (2 * N) := by
    rw [Nat.mul_comm]; exact (Nat.div_add_mod num (2 * N)).symm
  generalize num / (2 * N) = q at hq
  generalize num % (2 * N) = r at hq hr
  subst hq
  rw [accumulate_run A N hN hN2 w v q r hr hnum, accumulate_run A N hN hN2 w2 v2 q r hr hnum]
  rw [blocks_congr A N w v w2 v2 q 0 (CondSums.zero N) (fun k hk => h k (by omega)),
    pad_congr w w2 (q * (2 * N)) r (fun k hk => (h k hk).1),
    pad_congr v v2 (q * (2 * N)) r (fun k hk => (h k hk).2)]

/-- On no elements, with at least one lane and a representable `2 * N`, both loops of the
two-vector overload are skipped and the accumulators stay zero. -/
theorem accumulate_zero_length (A : FpArith) (N : ℕ) (hN : 0 < N) (hN2 : 2 * N < sizeMod)
    (w v : ℕ → ℚ) :
    ConditionNumber.accumulate A N w v 0 = .ok (CondSums.zero N) := by
  have h := accumulate_run A N hN hN2 w v 0 0 (by omega) (by
    have : 0 < sizeMod := by decide
    omega)
  simpa [ConditionNumber.blocks] using h

theorem reduce_zero (N : ℕ) :
    ReduceCascadedSums (CondSums.zero N).sum (CondSums.zero N).sum_err = 0 := by
  simp [ReduceCascadedSums, ReduceSum, CondSums.zero, Zero]

/-- With an error-free two-sum, one bf16 `Update1` step makes the represented total of a
lane grow by the value that `WidenMulPairwiseAdd` returned in that lane. -/
theorem update1BF_total (A : FpArith) (hS : A.SumErrorFree) {N : ℕ} (w0 v0 : VBF N)
    (sum0 comp0 : VF N) (l : Fin N) :
    (DotKernelCompensated.Update1BF A w0 v0 sum0 comp0).1 l
        + (DotKernelCompensated.Update1BF A w0 v0 sum0 comp0).2 l
      = sum0 l + comp0 l + A.WidenMulPairwiseAdd N w0 v0 l := by
  have h := hS (A.WidenMulPairwiseAdd N w0 v0 l) (sum0 l)
  simp only [DotKernelCompensated.Update1BF, TwoSums, Add]
  linarith

namespace Ieee

/-- An integer rounds to itself. -/
theorem roundHalfEven_intCast (n : ℤ) : roundHalfEven (n : ℚ) = n := by
  simp [roundHalfEven]

/-- A value strictly less than half a unit above an integer rounds down to it. -/
theorem roundHalfEven_of_lt (y : ℚ) (n : ℤ) (h1 : (n : ℚ) ≤ y) (h2 : y < n + 1 / 2) :
    roundHalfEven y = n := by
  have hf : ⌊y⌋ = n := Int.floor_eq_iff.mpr ⟨h1, by linarith⟩
  have h3 : y - (n : ℚ) < 1 / 2 := by linarith
  unfold roundHalfEven
  rw [hf, if_pos h3]

/-- A tie above an even integer rounds down to it. -/
theorem roundHalfEven_tie_even (y : ℚ) (n : ℤ) (hy : y = n + 1 / 2) (hn : n % 2 = 0) :
    roundHalfEven y = n := by
  have hf : ⌊y⌋ = n := Int.floor_eq_iff.mpr ⟨by linarith, by linarith⟩
  have h3 : y - (n : ℚ) = 1 / 2 := by linarith
  unfold roundHalfEven
  rw [hf, h3, if_neg (lt_irrefl _), if_neg (lt_irrefl _), if_pos hn]

/-- The unit in the last place of a value whose exponent is `e`. -/
theorem ulpExp_eq (f : Format) (x : ℚ) (e : ℤ) (hlo : (2 : ℚ) ^ e ≤ |x|)
    (hhi : |x| < (2 : ℚ) ^ (e + 1)) :
    ulpExp f x = max (e - ((f.prec : ℤ) - 1)) f.emin := by
  have hpos : (0 : ℚ) < |x| := lt_of_lt_of_le (by positivity) hlo
  have h1 : e ≤ Int.log 2 |x| := (Int.zpow_le_iff_le_log (by norm_num) hpos).mp (by exact_mod_cast hlo)
  have h2 : Int.log 2 |x| < e + 1 := (Int.lt_zpow_iff_log_lt (by norm_num) hpos).mp (by exact_mod_cast hhi)
  have h3 : Int.log 2 |x| = e := by omega
  simp only [ulpExp, h3]

/-- The unit in the last place of `m * 2 ^ e` is at most `2 ^ e` when `m` is a non-zero
significand of the format and `e` is at least `emin`. -/
theorem ulpExp_le (f : Format) (m e : ℤ) (hm : |m| < 2 ^ f.prec) (hm0 : m ≠ 0)
    (he : f.emin ≤ e) : ulpExp f ((m : ℚ) * (2 : ℚ) ^ e) ≤ e := by
  have h2 : (0 : ℚ) < (2 : ℚ) ^ e := by positivity
  have hpos : (0 : ℚ) < |(m : ℚ) * (2 : ℚ) ^ e| := by
    rw [abs_pos]
    exact mul_ne_zero (by exact_mod_cast hm0) h2.ne'
  have hlt : |(m : ℚ) * (2 : ℚ) ^ e| < ((2 : ℕ) : ℚ) ^ ((f.prec : ℤ) + e) := by
    rw [abs_mul, abs_of_pos h2, zpow_add₀ (by norm_num)]
    apply mul_lt_mul_of_pos_right _ h2
    have : ((|m| : ℤ) : ℚ) < ((2 ^ f.prec : ℤ) : ℚ) := by exact_mod_cast hm
    simpa using this
  have hlog := (Int.lt_zpow_iff_log_lt (by norm_num) hpos).mp hlt
  simp only [ulpExp]
  omega

/-- A value of the form `m * 2 ^ e` with a significand of the format and `e ≥ emin` is
not changed by rounding. -/
theorem roundFin_of_significand (f : Format) (m e : ℤ) (hm : |m| < 2 ^ f.prec)
    (he : f.emin ≤ e) : roundFin f ((m : ℚ) * (2 : ℚ) ^ e) = (m : ℚ) * (2 : ℚ) ^ e := by
  by_cases hm0 : m = 0
  · subst hm0
    simp [roundFin, roundHalfEven]
  · have hu := ulpExp_le f m e hm hm0 he
    unfold roundFin
    generalize ulpExp f ((m : ℚ) * (2 : ℚ) ^ e) = u at hu
    obtain ⟨k, hk⟩ : ∃ k : ℕ, e = u + k := ⟨(e - u).toNat, by omega⟩
    have h2 : (2 : ℚ) ^ u ≠ 0 := by positivity
    have hq : (m : ℚ) * (2 : ℚ) ^ e / (2 : ℚ) ^ u = ((m * 2 ^ k : ℤ) : ℚ) := by
      rw [hk, zpow_add₀ (by norm_num), zpow_natCast]
      push_cast
      field_simp
      ring
    rw [hq, roundHalfEven_intCast, hk, zpow_add₀ (by norm_num), zpow_natCast]
    push_cast
    ring

end Ieee

/-- A finite value of the format is the result of rounding itself. -/
theorem round_of_hasSignificand (f : Format) (x : ℚ) (h : HasSignificand f x) :
    Ieee.round f x = .fin x := by
  obtain ⟨m, e, hm, he, hx, rfl⟩ := h
  have hr := Ieee.roundFin_of_significand f m e hm he
  simp only [Ieee.round, hr, if_neg (not_le.mpr hx)]

/-- Rounding a value of exponent `e`: the nearest multiple `n * 2 ^ u` of the unit in the
last place, when it stays below `2 ^ emax`. -/
theorem round_eq (f : Format) (x : ℚ) (e u n : ℤ) (r : ℚ) (hlo : (2 : ℚ) ^ e ≤ |x|)
    (hhi : |x| < (2 : ℚ) ^ (e + 1)) (hu : max (e - ((f.prec : ℤ) - 1)) f.emin = u)
    (hn : Ieee.roundHalfEven (x / (2 : ℚ) ^ u) = n) (hr : (n : ℚ) * (2 : ℚ) ^ u = r)
    (hfin : |r| < (2 : ℚ) ^ f.emax) : Ieee.round f x = .fin r := by
  have h1 : Ieee.roundFin f x = r := by
    unfold Ieee.roundFin
    rw [Ieee.ulpExp_eq f x e hlo hhi, hu, hn, hr]
  simp only [Ieee.round, h1, if_neg (not_le.mpr hfin)]

/-- The binary32 product of `1 + 2^-12` with itself: the exact square `1 + 2^-11 + 2^-24`
is a tie between two floats and rounds to the even one, `1 + 2^-11`. -/
theorem mul_sample :
    Ieee.mul binary32 (.fin (4097 / 4096)) (.fin (4097 / 4096)) = .fin (2049 / 2048) := by
  simp only [Ieee.mul]
  refine round_eq binary32 _ 0 (-23) 8392704 _ ?_ ?_ ?_ ?_ ?_ ?_
  · norm_num [abs_of_pos]
  · norm_num [abs_of_pos]
  · simp [binary32]
  · exact Ieee.roundHalfEven_tie_even _ 8392704 (by norm_num) (by norm_num)
  · norm_num
  · norm_num [binary32, abs_of_pos]

/-- The rounding residue of that product, `2^-24`, is a float. -/
theorem twoProduct_sample :
    Ieee.binary32Arith.TwoProduct (.fin (4097 / 4096)) (.fin (4097 / 4096))
      = (.fin (2049 / 2048), .fin (1 / 2 ^ 24)) := by
  have h : Ieee.round binary32 (4097 / 4096 * (4097 / 4096) - 2049 / 2048) = .fin (1 / 2 ^ 24) := by
    have e : (4097 / 4096 * (4097 / 4096) - 2049 / 2048 : ℚ) = 1 / 2 ^ 24 := by norm_num
    rw [e]
    exact round_of_hasSignificand binary32 _
      ⟨1, -24, by norm_num [binary32], by norm_num [binary32],
        by norm_num [binary32, abs_of_pos], by norm_num [zpow_neg]⟩
  simp only [Ieee.binary32Arith, mul_sample, Ieee.exactProd, Ieee.residue, h]

/-- The binary32 two-sum of `1 + 2^-11` and `2^-60`: the sum rounds to `1 + 2^-11` and the
residue is `2^-60`. -/
theorem twoSum_sample :
    Ieee.binary32Arith.TwoSum (.fin (2049 / 2048)) (.fin (1 / 2 ^ 60))
      = (.fin (2049 / 2048), .fin (1 / 2 ^ 60)) := by
  have h1 : Ieee.add binary32 (.fin (2049 / 2048)) (.fin (1 / 2 ^ 60)) = .fin (2049 / 2048) := by
    simp only [Ieee.add]
    refine round_eq binary32 _ 0 (-23) 8392704 _ ?_ ?_ ?_ ?_ ?_ ?_
    · norm_num [abs_of_pos]
    · norm_num [abs_of_pos]
    · simp [binary32]
    · exact Ieee.roundHalfEven_of_lt _ 8392704 (by norm_num) (by norm_num)
    · norm_num
    · norm_num [binary32, abs_of_pos]
  have h2 : Ieee.round binary32 (2049 / 2048 + 1 / 2 ^ 60 - 2049 / 2048) = .fin (1 / 2 ^ 60) := by
    have e : (2049 / 2048 + 1 / 2 ^ 60 - 2049 / 2048 : ℚ) = 1 / 2 ^ 60 := by norm_num
    rw [e]
    exact round_of_hasSignificand binary32 _
      ⟨1, -60, by norm_num [binary32], by norm_num [binary32],
        by norm_num [binary32, abs_of_pos], by norm_num [zpow_neg]⟩
  simp only [Ieee.binary32Arith, h1, Ieee.exactSum, Ieee.residue, h2]

/-- The binary32 sum of the two residues `2^-24` and `2^-60` is `2^-24`: the smaller one is
rounded away. -/
theorem add_residues_sample :
    Ieee.add binary32 (.fin (1 / 2 ^ 24)) (.fin (1 / 2 ^ 60)) = .fin (1 / 2 ^ 24) := by
  simp only [Ieee.add]
  refine round_eq binary32 _ (-24) (-47) 8388608 _ ?_ ?_ ?_ ?_ ?_ ?_
  · norm_num [abs_of_pos, zpow_neg]
  · norm_num [abs_of_pos, zpow_neg]
  · simp [binary32]
  · exact Ieee.roundHalfEven_of_lt _ 8388608 (by norm_num [zpow_neg]) (by norm_num [zpow_neg])
  · norm_num [zpow_neg]
  · norm_num [binary32, abs_of_pos]

/-- Adding a float to zero is exact. -/
theorem add_zero_left (x : ℚ) (h : IsF32 x) : Ieee.add binary32 (.fin 0) (.fin x) = .fin x := by
  simp only [Ieee.add, zero_add]
  exact round_of_hasSignificand binary32 x h

/-- The value `2^-24` is a float. -/
theorem isF32_sample_residue : IsF32 (1 / 2 ^ 24) :=
  ⟨1, -24, by norm_num [binary32], by norm_num [binary32],
    by norm_num [binary32, abs_of_pos], by norm_num [zpow_neg]⟩

/-- The value `1 + 2^-12` is a float. -/
theorem isF32_sample_input : IsF32 (4097 / 4096) :=
  ⟨4097, -12, by norm_num [binary32], by norm_num [binary32],
    by norm_num [binary32, abs_of_pos], by norm_num [zpow_neg]⟩

/-- The value `2^-60` is a float. -/
theorem isF32_sample_sum : IsF32 (1 / 2 ^ 60) :=
  ⟨1, -60, by norm_num [binary32], by norm_num [binary32],
    by norm_num [binary32, abs_of_pos], by norm_num [zpow_neg]⟩

/-- Zero is a float. -/
theorem isF32_zero : IsF32 0 :=
  ⟨0, 0, by norm_num [binary32], by norm_num [binary32],
    by norm_num [binary32], by norm_num⟩

/-- Zero is a value of every format. -/
theorem round_zero (f : Format) : Ieee.round f 0 = .fin 0 := by
  simp [Ieee.round, Ieee.roundFin, Ieee.roundHalfEven]
  positivity

/-- In binary32, `0 + 0 = 0`. -/
theorem add_zero_zero : Ieee.add binary32 (.fin 0) (.fin 0) = .fin 0 := by
  simp [Ieee.add, round_zero]

/-- A finite result of rounding is the value rounded to nearest even. -/
theorem round_eq_fin (f : Format) (x t : ℚ) (h : Ieee.round f x = .fin t) :
    t = Ieee.roundFin f x := by
  unfold Ieee.round at h
  split_ifs at h
  exact (Ieee.Fp.fin.inj h).symm

/-- One float `Update1` step on a lane with finite data, for a two-product and a two-sum
that return finite values there: the new `sum0` is the sum returned by the two-sum, the
new `comp0` is `comp0 + (perr0 + serr0)` with both additions rounded to binary32. -/
theorem fp_update1_lane (A : Ieee.Arith) {N : ℕ} (w0 v0 sum0 comp0 : Ieee.VF N) (l : Fin N)
    (w v s c p pe s1 se : ℚ) (hw : w0 l = .fin w) (hv : v0 l = .fin v) (hs : sum0 l = .fin s)
    (hc : comp0 l = .fin c) (hP : A.TwoProduct (.fin w) (.fin v) = (.fin p, .fin pe))
    (hS : A.TwoSum (.fin p) (.fin s) = (.fin s1, .fin se)) :
    (Ieee.DotKernelCompensated.Update1 A w0 v0 sum0 comp0).1 l = .fin s1
    ∧ (Ieee.DotKernelCompensated.Update1 A w0 v0 sum0 comp0).2 l
        = Ieee.add binary32 (.fin c) (Ieee.add binary32 (.fin pe) (.fin se)) := by
  simp only [Ieee.DotKernelCompensated.Update1, Ieee.TwoProducts, Ieee.TwoSums, Ieee.Add, hw,
    hv, hs, hc, hP, hS, and_self]

/-- One bf16 `Update1` step on a lane with finite data, for a widening multiply and a
two-sum that return finite values there: the new `sum0` is the sum returned by the
two-sum, the new `comp0` is `comp0 + serr0` rounded to binary32. -/
theorem fp_update1BF_lane (A : Ieee.Arith) {N : ℕ} (w0 v0 : Ieee.VBF N)
    (sum0 comp0 : Ieee.VF N) (l : Fin N) (s c p s1 se : ℚ) (hs : sum0 l = .fin s)
    (hc : comp0 l = .fin c) (hW : A.WidenMulPairwiseAdd N w0 v0 l = .fin p)
    (hS : A.TwoSum (.fin p) (.fin s) = (.fin s1, .fin se)) :
    (Ieee.DotKernelCompensated.Update1BF A w0 v0 sum0 comp0).1 l = .fin s1
    ∧ (Ieee.DotKernelCompensated.Update1BF A w0 v0 sum0 comp0).2 l
        = Ieee.add binary32 (.fin c) (.fin se) := by
  simp only [Ieee.DotKernelCompensated.Update1BF, Ieee.TwoSums, Ieee.Add, hs, hc, hW, hS,
    and_self]

/-- The product of two bf16 values has at most 16 significant bits: it is a `float` when
it neither overflows nor underflows the exponent range of binary32. -/
theorem isF32_mul_of_isBF16 (a b : ℚ) (ha : IsBF16 a) (hb : IsBF16 b)
    (hov : |a * b| < 2 ^ 128) (hun : a * b = 0 ∨ (2 : ℚ) ^ (-126 : ℤ) ≤ |a * b|) :
    IsF32 (a * b) := by
  rcases hun with h0 | hun
  · rw [h0]
    exact ⟨0, 0, by norm_num [binary32], by norm_num [binary32], by norm_num [binary32],
      by norm_num⟩
  · obtain ⟨m1, e1, h1, -, -, rfl⟩ := ha
    obtain ⟨m2, e2, h2, -, -, rfl⟩ := hb
    have p1 : 0 ≤ |m1| := abs_nonneg m1
    have p2 : 0 ≤ |m2| := abs_nonneg m2
    have h3 : |m1 * m2| < 2 ^ 16 := by
      rw [abs_mul]
      calc |m1| * |m2| < 2 ^ 8 * 2 ^ 8 := mul_lt_mul'' h1 h2 p1 p2
        _ = 2 ^ 16 := by norm_num
    have hx : (m1 : ℚ) * (2 : ℚ) ^ e1 * ((m2 : ℚ) * (2 : ℚ) ^ e2)
        = ((m1 * m2 : ℤ) : ℚ) * (2 : ℚ) ^ (e1 + e2) := by
      rw [zpow_add₀ (by norm_num : (2 : ℚ) ≠ 0)]
      push_cast
      ring
    rw [hx] at hov hun ⊢
    have hE : -149 ≤ e1 + e2 := by
      by_contra hlt
      have hlt2 : e1 + e2 ≤ -150 := by omega
      have hpos : (0 : ℚ) < (2 : ℚ) ^ (e1 + e2) := by positivity
      have hM : |((m1 * m2 : ℤ) : ℚ)| < 2 ^ 16 := by
        have : ((|m1 * m2| : ℤ) : ℚ) < ((2 ^ 16 : ℤ) : ℚ) := by exact_mod_cast h3
        simpa using this
      have hle : (2 : ℚ) ^ (e1 + e2) ≤ (2 : ℚ) ^ (-150 : ℤ) :=
        zpow_le_zpow_right₀ (by norm_num) hlt2
      have hlt3 : |((m1 * m2 : ℤ) : ℚ) * (2 : ℚ) ^ (e1 + e2)| < 2 ^ 16 * (2 : ℚ) ^ (-150 : ℤ) := by
        rw [abs_mul, abs_of_pos hpos]
        calc |((m1 * m2 : ℤ) : ℚ)| * (2 : ℚ) ^ (e1 + e2)
            ≤ |((m1 * m2 : ℤ) : ℚ)| * (2 : ℚ) ^ (-150 : ℤ) :=
              mul_le_mul_of_nonneg_left hle (abs_nonneg _)
          _ < 2 ^ 16 * (2 : ℚ) ^ (-150 : ℤ) := mul_lt_mul_of_pos_right hM (by positivity)
      have hc : (2 : ℚ) ^ 16 * (2 : ℚ) ^ (-150 : ℤ) < (2 : ℚ) ^ (-126 : ℤ) := by
        norm_num [zpow_neg]
      linarith
    refine ⟨m1 * m2, e1 + e2, ?_, hE, ?_, rfl⟩
    · calc |m1 * m2| < 2 ^ 16 := h3
        _ ≤ 2 ^ binary32.prec := by norm_num [binary32]
    · have e : (2 : ℚ) ^ binary32.emax = 2 ^ 128 := zpow_ofNat 2 128
      rw [e]
      exact hov

/-- The value `2^15` is a bf16 value. -/
theorem isBF16_two_pow_fifteen : IsBF16 32768 :=
  ⟨1, 15, by norm_num [bfloat16], by norm_num [bfloat16],
    by norm_num [bfloat16, abs_of_pos], by norm_num⟩

/-- The value `1` is a bf16 value. -/
theorem isBF16_one : IsBF16 1 :=
  ⟨1, 0, by norm_num [bfloat16], by norm_num [bfloat16],
    by norm_num [bfloat16], by norm_num⟩

/-- The number `2 ^ 30 + 1` needs 31 significant bits: it is not a `float`. -/
theorem not_isF32_two_pow_thirty_add_one : ¬ IsF32 1073741825 := by
  rintro ⟨m, e, hm, -, -, h⟩
  have hm' : |m| < 2 ^ 24 := hm
  have hm2 := abs_lt.mp hm'
  cases e with
  | ofNat k =>
    have hz : (1073741825 : ℤ) = m * 2 ^ k := by
      have h2 : ((1073741825 : ℤ) : ℚ) = ((m * 2 ^ k : ℤ) : ℚ) := by
        push_cast
        rw [h]
        simp [zpow_natCast]
      exact_mod_cast h2
    cases k with
    | zero =>
      simp only [pow_zero, mul_one] at hz
      omega
    | succ k =>
      have : m * 2 ^ (k + 1) = 2 * (m * 2 ^ k) := by ring
      omega
  | negSucc k =>
    have hpos : (0 : ℚ) < 2 ^ (k + 1) := by positivity
    have hz : (m : ℚ) = 1073741825 * 2 ^ (k + 1) := by
      rw [h, zpow_negSucc]
      field_simp
    have hz2 : m = 1073741825 * 2 ^ (k + 1) := by exact_mod_cast hz
    have hge : (1 : ℤ) ≤ 2 ^ (k + 1) := one_le_pow₀ (by norm_num)
    nlinarith

/-- An integer below `2 ^ 24` in magnitude is a float. -/
theorem round32_int (n : ℤ) (h : |n| < 2 ^ 24) : Ieee.round binary32 (n : ℚ) = .fin (n : ℚ) := by
  apply round_of_hasSignificand
  refine ⟨n, 0, by simpa [binary32] using h, by norm_num [binary32], ?_, by simp⟩
  have h1 : ((|n| : ℤ) : ℚ) < ((2 ^ 24 : ℤ) : ℚ) := by exact_mod_cast h
  push_cast at h1
  calc |(n : ℚ)| < (2 : ℚ) ^ (24 : ℤ) := by rw [zpow_ofNat]; exact h1
    _ < (2 : ℚ) ^ binary32.emax := zpow_lt_zpow_right₀ (by norm_num) (by norm_num [binary32])

/-- The value `1 + 2^-11` is a float. -/
theorem isF32_sample_prod : IsF32 (2049 / 2048) :=
  ⟨2049, -11, by norm_num [binary32], by norm_num [binary32],
    by norm_num [binary32, abs_of_pos], by norm_num [zpow_neg]⟩

/-- The binary32 two-sum of `1 + 2^-11` and `0` is exact. -/
theorem twoSum_zero_sample :
    Ieee.binary32Arith.TwoSum (.fin (2049 / 2048)) (.fin 0) = (.fin (2049 / 2048), .fin 0) := by
  have h1 : Ieee.add binary32 (.fin (2049 / 2048)) (.fin 0) = .fin (2049 / 2048) := by
    simp only [Ieee.add, add_zero]
    exact round_of_hasSignificand binary32 _ isF32_sample_prod
  simp only [Ieee.binary32Arith, h1, Ieee.exactSum, Ieee.residue, add_zero, sub_self,
    round_zero]

/-- The value `2^30` is a float. -/
theorem isF32_two_pow_thirty : IsF32 1073741824 :=
  ⟨1, 30, by norm_num [binary32], by norm_num [binary32],
    by norm_num [binary32, abs_of_pos], by norm_num⟩

/-- In binary32 the pair sum `2^15 * 2^15 + 1 * 1 = 2^30 + 1` is rounded to `2^30`. -/
theorem widenMul_sample :
    Ieee.binary32Arith.WidenMulPairwiseAdd 1 (![.fin 32768, .fin 1] : Ieee.VBF 1)
        (![.fin 32768, .fin 1] : Ieee.VBF 1) (0 : Fin 1) = .fin 1073741824 := by
  have h1 : Ieee.mul binary32 (.fin 32768) (.fin 32768) = .fin 1073741824 := by
    simp only [Ieee.mul]
    have e : (32768 * 32768 : ℚ) = 1073741824 := by norm_num
    rw [e]
    exact round_of_hasSignificand binary32 _ isF32_two_pow_thirty
  have h2 : Ieee.mul binary32 (.fin 1) (.fin 1) = .fin 1 := by
    simp only [Ieee.mul, mul_one]
    simpa using round32_int 1 (by norm_num)
  have h3 : Ieee.add binary32 (.fin 1073741824) (.fin 1) = .fin 1073741824 := by
    simp only [Ieee.add]
    refine round_eq binary32 _ 30 7 8388608 _ ?_ ?_ ?_ ?_ ?_ ?_
    · norm_num [abs_of_pos]
    · norm_num [abs_of_pos]
    · simp [binary32]
    · exact Ieee.roundHalfEven_of_lt _ 8388608 (by norm_num) (by norm_num)
    · norm_num
    · norm_num [binary32, abs_of_pos]
  simp only [Ieee.binary32Arith]
  have i0 : (⟨2 * (0 : Fin 1).val, by decide⟩ : Fin (2 * 1)) = (0 : Fin 2) := rfl
  have i1 : (⟨2 * (0 : Fin 1).val + 1, by decide⟩ : Fin (2 * 1)) = (1 : Fin 2) := rfl
  simp only [i0, i1, Matrix.cons_val_zero, Matrix.cons_val_one, Matrix.head_cons, h1, h2, h3]

/-- The two-sum of `binary32Arith`: the float sum and its residue. -/
theorem binary32Arith_twoSum (a b : Ieee.Fp) :
    Ieee.binary32Arith.TwoSum a b
      = (Ieee.add binary32 a b, Ieee.residue (Ieee.exactSum a b) (Ieee.add binary32 a b)) :=
  rfl

/-- The residue of a finite sum. -/
theorem residue_exactSum (a b z : ℚ) :
    Ieee.residue (Ieee.exactSum (.fin a) (.fin b)) (.fin z) = Ieee.round binary32 (a + b - z) :=
  rfl

/-- The binary32 two-sum of `2^30` and `0` is exact. -/
theorem twoSum_pow_sample :
    Ieee.binary32Arith.TwoSum (.fin 1073741824) (.fin 0) = (.fin 1073741824, .fin 0) := by
  have h1 : Ieee.add binary32 (.fin 1073741824) (.fin 0) = .fin 1073741824 := by
    show Ieee.round binary32 (1073741824 + 0) = _
    rw [add_zero]
    exact round_of_hasSignificand binary32 _ isF32_two_pow_thirty
  have e : (1073741824 + 0 - 1073741824 : ℚ) = 0 := by norm_num
  rw [binary32Arith_twoSum, h1, residue_exactSum, e, round_zero]

/-- In binary32 the pair sum `3/2 * 1/2 + 1 * 1 = 7/4` is exact. -/
theorem widenMul_exact_sample :
    Ieee.binary32Arith.WidenMulPairwiseAdd 1 (![.fin (3 / 2), .fin 1] : Ieee.VBF 1)
        (![.fin (1 / 2), .fin 1] : Ieee.VBF 1) (0 : Fin 1) = .fin (7 / 4) := by
  have h1 : Ieee.mul binary32 (.fin (3 / 2)) (.fin (1 / 2)) = .fin (3 / 4) := by
    simp only [Ieee.mul]
    have e : (3 / 2 * (1 / 2) : ℚ) = 3 / 4 := by norm_num
    rw [e]
    exact round_of_hasSignificand binary32 _
      ⟨3, -2, by norm_num [binary32], by norm_num [binary32],
        by norm_num [binary32, abs_of_pos], by norm_num [zpow_neg]⟩
  have h2 : Ieee.mul binary32 (.fin 1) (.fin 1) = .fin 1 := by
    simp only [Ieee.mul, mul_one]
    simpa using round32_int 1 (by norm_num)
  have h3 : Ieee.add binary32 (.fin (3 / 4)) (.fin 1) = .fin (7 / 4) := by
    simp only [Ieee.add]
    have e : (3 / 4 + 1 : ℚ) = 7 / 4 := by norm_num
    rw [e]
    exact round_of_hasSignificand binary32 _
      ⟨7, -2, by norm_num [binary32], by norm_num [binary32],
        by norm_num [binary32, abs_of_pos], by norm_num [zpow_neg]⟩
  simp only [Ieee.binary32Arith]
  have i0 : (⟨2 * (0 : Fin 1).val, by decide⟩ : Fin (2 * 1)) = (0 : Fin 2) := rfl
  have i1 : (⟨2 * (0 : Fin 1).val + 1, by decide⟩ : Fin (2 * 1)) = (1 : Fin 2) := rfl
  simp only [i0, i1, Matrix.cons_val_zero, Matrix.cons_val_one, Matrix.head_cons, h1, h2, h3]

/-- The binary32 two-sum of `7/4` and `1/2` is exact: `(9/4, 0)`. -/
theorem twoSum_exact_sample :
    Ieee.binary32Arith.TwoSum (.fin (7 / 4)) (.fin (1 / 2)) = (.fin (9 / 4), .fin 0) := by
  have h1 : Ieee.add binary32 (.fin (7 / 4)) (.fin (1 / 2)) = .fin (9 / 4) := by
    simp only [Ieee.add]
    have e : (7 / 4 + 1 / 2 : ℚ) = 9 / 4 := by norm_num
    rw [e]
    exact round_of_hasSignificand binary32 _
      ⟨9, -2, by norm_num [binary32], by norm_num [binary32],
        by norm_num [binary32, abs_of_pos], by norm_num [zpow_neg]⟩
  have e2 : (7 / 4 + 1 / 2 - 9 / 4 : ℚ) = 0 := by norm_num
  simp only [Ieee.binary32Arith, h1, Ieee.exactSum, Ieee.residue, e2, round_zero]

/-- The value `1/4` is a float. -/
theorem isF32_quarter : IsF32 (1 / 4) :=
  ⟨1, -2, by norm_num [binary32], by norm_num [binary32],
    by norm_num [binary32, abs_of_pos], by norm_num [zpow_neg]⟩

/-- The value `2^-15` is a bf16 value. -/
theorem isBF16_two_pow_neg_fifteen : IsBF16 (1 / 2 ^ 15) :=
  ⟨1, -15, by norm_num [bfloat16], by norm_num [bfloat16],
    by norm_num [bfloat16, abs_of_pos], by norm_num [zpow_neg]⟩

/-- Zero is a bf16 value. -/
theorem isBF16_zero : IsBF16 0 :=
  ⟨0, 0, by norm_num [bfloat16], by norm_num [bfloat16],
    by norm_num [bfloat16], by norm_num⟩

/-- The value `2^-30` is a float. -/
theorem isF32_two_pow_neg_thirty : IsF32 (1 / 2 ^ 30) :=
  ⟨1, -30, by norm_num [binary32], by norm_num [binary32],
    by norm_num [binary32, abs_of_pos], by norm_num [zpow_neg]⟩

/-- In binary32 the pair sum `2^-15 * 2^-15 + 0 * 0 = 2^-30` is exact. -/
theorem widenMul_small_sample :
    Ieee.binary32Arith.WidenMulPairwiseAdd 1 (![.fin (1 / 2 ^ 15), .fin 0] : Ieee.VBF 1)
        (![.fin (1 / 2 ^ 15), .fin 0] : Ieee.VBF 1) (0 : Fin 1) = .fin (1 / 2 ^ 30) := by
  have h1 : Ieee.mul binary32 (.fin (1 / 2 ^ 15)) (.fin (1 / 2 ^ 15)) = .fin (1 / 2 ^ 30) := by
    show Ieee.round binary32 (1 / 2 ^ 15 * (1 / 2 ^ 15)) = _
    have e : (1 / 2 ^ 15 * (1 / 2 ^ 15) : ℚ) = 1 / 2 ^ 30 := by norm_num
    rw [e]
    exact round_of_hasSignificand binary32 _ isF32_two_pow_neg_thirty
  have h2 : Ieee.mul binary32 (.fin 0) (.fin 0) = .fin 0 := by
    show Ieee.round binary32 (0 * 0) = _
    rw [mul_zero]
    exact round_zero _
  have h3 : Ieee.add binary32 (.fin (1 / 2 ^ 30)) (.fin 0) = .fin (1 / 2 ^ 30) := by
    show Ieee.round binary32 (1 / 2 ^ 30 + 0) = _
    rw [add_zero]
    exact round_of_hasSignificand binary32 _ isF32_two_pow_neg_thirty
  simp only [Ieee.binary32Arith]
  have i0 : (⟨2 * (0 : Fin 1).val, by decide⟩ : Fin (2 * 1)) = (0 : Fin 2) := rfl
  have i1 : (⟨2 * (0 : Fin 1).val + 1, by decide⟩ : Fin (2 * 1)) = (1 : Fin 2) := rfl
  simp only [i0, i1, Matrix.cons_val_zero, Matrix.cons_val_one, Matrix.head_cons, h1, h2, h3]

/-- The binary32 two-sum of `2^-30` and `1`: the sum rounds to `1`, the residue is
`2^-30`. -/
theorem twoSum_small_sample :
    Ieee.binary32Arith.TwoSum (.fin (1 / 2 ^ 30)) (.fin 1) = (.fin 1, .fin (1 / 2 ^ 30)) := by
  have h1 : Ieee.add binary32 (.fin (1 / 2 ^ 30)) (.fin 1) = .fin 1 := by
    show Ieee.round binary32 (1 / 2 ^ 30 + 1) = _
    refine round_eq binary32 _ 0 (-23) 8388608 _ ?_ ?_ ?_ ?_ ?_ ?_
    · norm_num [abs_of_pos]
    · norm_num [abs_of_pos]
    · simp [binary32]
    · exact Ieee.roundHalfEven_of_lt _ 8388608 (by norm_num) (by norm_num)
    · norm_num
    · norm_num [binary32, abs_of_pos]
  have e : (1 / 2 ^ 30 + 1 - 1 : ℚ) = 1 / 2 ^ 30 := by norm_num
  rw [binary32Arith_twoSum, h1, residue_exactSum, e,
    round_of_hasSignificand binary32 _ isF32_two_pow_neg_thirty]

/-- The binary32 sum of `1` and `2^-30` is `1`: the small term is rounded away. -/
theorem add_small_sample :
    Ieee.add binary32 (.fin 1) (.fin (1 / 2 ^ 30)) = .fin 1 := by
  show Ieee.round binary32 (1 + 1 / 2 ^ 30) = _
  refine round_eq binary32 _ 0 (-23) 8388608 _ ?_ ?_ ?_ ?_ ?_ ?_
  · norm_num [abs_of_pos]
  · norm_num [abs_of_pos]
  · simp [binary32]
  · exact Ieee.roundHalfEven_of_lt _ 8388608 (by norm_num) (by norm_num)
  · norm_num
  · norm_num [binary32, abs_of_pos]

/-! ## The claims -/

/-- C1: for every lane count `N ≥ 1`, every `num` and every `w`, `v` whose signed sum of
products over the first `num` indices is non-zero, the two-vector `ConditionNumber`
returns `2 * Σ |w_i * v_i| / |Σ w_i * v_i|`, whenever the two-sum is error free (exact
arithmetic is one such case). `num` and `2 * N` are `size_t` values. -/
theorem C1_conditionNumber_formula (A : FpArith) (hA : A.SumErrorFree) (N : ℕ) (hN : 1 ≤ N)
    (hN2 : 2 * N < sizeMod) (w v : ℕ → ℚ) (num : ℕ) (hnum : num < sizeMod)
    (hne : ∑ k ∈ Finset.range num, w k * v k ≠ 0) :
    ConditionNumber A N w v num
      = .ok ((2 * (∑ k ∈ Finset.range num, |w k * v k|)
              / |∑ k ∈ Finset.range num, w k * v k| : ℚ) : WithTop ℚ) := by
  rw [ConditionNumber_exact A hA N hN hN2 w v num hnum]
  exact finish_of_ne_zero _ _ hne (Finset.sum_nonneg (fun k _ => abs_nonneg _))

/-- C1 at five elements on two lanes (one full block, one padded remainder vector), with
the rounding arithmetic `floorArith`: the result is `2 * 14.5 / 6.5 = 58 / 13`. -/
theorem C1_conditionNumber_formula_witness :
    ConditionNumber floorArith 2 wEx vEx 5 = .ok ((58 / 13 : ℚ) : WithTop ℚ) := by
  have hne : ∑ k ∈ Finset.range 5, wEx k * vEx k ≠ 0 := by
    norm_num [Finset.sum_range_succ, wEx, vEx, ofList]
  have h := C1_conditionNumber_formula floorArith floorArith_sumErrorFree 2 (by decide)
    (by decide) wEx vEx 5 (by decide) hne
  rw [h]
  norm_num [Finset.sum_range_succ, wEx, vEx, ofList, abs_div]

/-- C4: for every lane count `N ≥ 1`, every `num` and every `w`, `v`, `ConditionNumber` on
the `num` given elements (full blocks, then a zero-padded remainder) equals
`ConditionNumber` on the inputs extended with zeros to the next multiple of `2 * N`
elements (full blocks only), whenever the two-sum is error free or adding zero is exact
(in the second case the accumulators themselves coincide). `2 * N` and the padded length
are `size_t` values. -/
theorem C4_padding_independent (A : FpArith) (hA : A.SumErrorFree ∨ A.ZeroExact) (N : ℕ)
    (hN : 1 ≤ N) (hN2 : 2 * N < sizeMod) (w v : ℕ → ℚ) (num : ℕ)
    (hnum : roundUpTo num (2 * N) < sizeMod) :
    ConditionNumber A N w v num
      = ConditionNumber A N (zeroExtend w num) (zeroExtend v num) (roundUpTo num (2 * N)) := by
  have hle : num ≤ roundUpTo num (2 * N) := le_roundUpTo num (2 * N) (by omega)
  rcases hA with hS | hZ
  · rw [ConditionNumber_exact A hS N hN hN2 w v num (by omega),
      ConditionNumber_exact A hS N hN hN2 _ _ (roundUpTo num (2 * N)) hnum]
    rw [sum_zeroExtend (fun k => w k * v k) _ num _ hle
        (fun k => by by_cases hk : k < num <;> simp [zeroExtend, hk]),
      sum_zeroExtend (fun k => |w k * v k|) _ num _ hle
        (fun k => by by_cases hk : k < num <;> simp [zeroExtend, hk])]
  · simp only [ConditionNumber, accumulate_padded A hZ N hN hN2 w v num hnum]

/-- C4 at five elements on two lanes, where the padded run has eight elements: with the
rounding arithmetic `floorArith` (error free, but adding zero to a non-integer is not
exact) and with `exactArith` (adding zero is exact). -/
theorem C4_padding_independent_witness :
    ConditionNumber floorArith 2 wEx vEx 5
        = ConditionNumber floorArith 2 (zeroExtend wEx 5) (zeroExtend vEx 5) 8
    ∧ ConditionNumber exactArith 2 wEx vEx 5
        = ConditionNumber exactArith 2 (zeroExtend wEx 5) (zeroExtend vEx 5) 8 :=
  ⟨C4_padding_independent floorArith (Or.inl floorArith_sumErrorFree) 2 (by decide) (by decide)
      wEx vEx 5 (by decide),
    C4_padding_independent exactArith (Or.inr exactArith_zeroExact) 2 (by decide) (by decide)
      wEx vEx 5 (by decide)⟩

/-- C5: the `CompressedArray` overload of `Dot` returns `w.scale()` times the unscaled
`Dot` over the span of `w`'s data with the same offset, vector and `num`; hence for every
scale `s` the result is `s` times the result at scale one (the scale enters exactly once,
as a factor). The `std::array`, raw-pointer and `PackedSpan` overloads return the reduced
value itself, with no factor. -/
theorem C5_scale_applied_once (DecompressAndCall : DecompressAndCallFn) (w : CompressedArray)
    (a : StdArray) (p : ℕ → ℚ) (sp : PackedSpan) (w_ofs : ℕ) (vec : ℕ → ℚ) (num : ℕ) :
    DotCompressed DecompressAndCall w w_ofs vec num
        = w.scale * Dot DecompressAndCall (MakeConstSpan w.data w.kCapacity) w_ofs vec num
    ∧ (∀ s : ℚ, DotCompressed DecompressAndCall { w with scale := s } w_ofs vec num
        = s * DotCompressed DecompressAndCall { w with scale := 1 } w_ofs vec num)
    ∧ DotArray DecompressAndCall a w_ofs vec num
        = Dot DecompressAndCall (MakeConstSpan a.data a.kCapacity) w_ofs vec num
    ∧ DotPtr DecompressAndCall p vec num
        = Dot DecompressAndCall (MakeConstSpan p num) 0 vec num
    ∧ Dot DecompressAndCall sp w_ofs vec num = DecompressAndCall sp w_ofs (MakeSpan vec num) := by
  refine ⟨rfl, ?_, rfl, rfl, rfl⟩
  intro s
  simp [DotCompressed]

/-- C8 fails as stated: with `epsilon = 0` a zero gradient gives the quotient `0 / 0`, so
the weight `5` is not returned unchanged; likewise at `t = 0`, where `1 - beta1^0 = 0`. -/
theorem C8_counterexample :
    AdamUpdate Rat.sqrt [[0]] 1 (1 / 2) (1 / 2) 0 1 [[5]] [[0]] [[0]] = .error .divByZero
    ∧ AdamUpdate Rat.sqrt [[0]] 1 (1 / 2) (1 / 2) 0 1 [[5]] [[0]] [[0]]
        ≠ .ok ([[5]], [[0]], [[0]])
    ∧ AdamUpdate Rat.sqrt [[0]] 1 (1 / 2) (1 / 2) 1 0 [[5]] [[0]] [[0]] = .error .divByZero
    ∧ AdamUpdate Rat.sqrt [[0]] 1 (1 / 2) (1 / 2) 1 0 [[5]] [[0]] [[0]]
        ≠ .ok ([[5]], [[0]], [[0]]) := by
  have h1 : AdamUpdate Rat.sqrt [[0]] 1 (1 / 2) (1 / 2) 0 1 [[5]] [[0]] [[0]]
      = .error .divByZero := by
    have h := element_zero Rat.sqrt (by simp) 1 (1 / 2) (1 / 2) 0 1 5
    norm_num at h
    simp only [AdamUpdate, AdamUpdate.tensor, h]
  have h2 : AdamUpdate Rat.sqrt [[0]] 1 (1 / 2) (1 / 2) 1 0 [[5]] [[0]] [[0]]
      = .error .divByZero := by
    have h := element_zero Rat.sqrt (by simp) 1 (1 / 2) (1 / 2) 1 0 5
    norm_num at h
    simp only [AdamUpdate, AdamUpdate.tensor, h]
  refine ⟨h1, ?_, h2, ?_⟩
  · rw [h1]; exact fun h => by cases h
  · rw [h2]; exact fun h => by cases h

/-- C8, amended: with a square root that maps zero to zero, `epsilon ≠ 0`, `beta1^t ≠ 1`
and `beta2^t ≠ 1`, `AdamUpdate` on all-zero gradients and all-zero moments succeeds and
returns every weight unchanged and every moment entry zero. -/
theorem C8_zero_gradient_noop (sqrt : ℚ → ℚ) (hs : sqrt 0 = 0)
    (alpha beta1 beta2 epsilon : ℚ) (t : ℕ)
    (h1 : beta1 ^ t ≠ 1) (h2 : beta2 ^ t ≠ 1) (he : epsilon ≠ 0) (weights : Tensors) :
    AdamUpdate sqrt (zerosLike weights) alpha beta1 beta2 epsilon t weights
        (zerosLike weights) (zerosLike weights)
      = .ok (weights, zerosLike weights, zerosLike weights) := by
  induction weights with
  | nil => rfl
  | cons w0 ws ih =>
    simp only [zerosLike, List.map_cons] at ih ⊢
    simp only [AdamUpdate, tensor_zero sqrt hs alpha beta1 beta2 epsilon t h1 h2 he w0, ih]

/-- C8, amended, on two tensors at `t = 3`. -/
theorem C8_zero_gradient_noop_witness :
    AdamUpdate Rat.sqrt [[0, 0], [0]] 1 (1 / 2) (1 / 3) (1 / 100) 3 [[4, 5], [-3]]
        [[0, 0], [0]] [[0, 0], [0]]
      = .ok ([[4, 5], [-3]], [[0, 0], [0]], [[0, 0], [0]]) :=
  C8_zero_gradient_noop Rat.sqrt (by simp) 1 (1 / 2) (1 / 3) (1 / 100) 3 (by norm_num)
    (by norm_num) (by norm_num) [[4, 5], [-3]]

/-- C9 fails as stated, in binary32 with round to nearest even, on one lane with
`w0 = v0 = 1 + 2^-12`, `sum0 = 2^-60`, `comp0 = 0` (all floats): `TwoProducts` returns
`(1 + 2^-11, 2^-24)` and `TwoSums` returns `(1 + 2^-11, 2^-60)`, both error free, but
`hn::Add(perr0, serr0)` rounds `2^-24 + 2^-60` to `2^-24`, so the new pair is
`(1 + 2^-11, 2^-24)` and `sum0' + comp0'` is `2^-60` short of `sum0 + comp0 + w0 * v0`. -/
theorem C9_counterexample :
    IsF32 (4097 / 4096) ∧ IsF32 (1 / 2 ^ 60) ∧ IsF32 0
    ∧ Ieee.binary32Arith.TwoProduct (.fin (4097 / 4096)) (.fin (4097 / 4096))
        = (.fin (2049 / 2048), .fin (1 / 2 ^ 24))
    ∧ (2049 / 2048 + 1 / 2 ^ 24 : ℚ) = 4097 / 4096 * (4097 / 4096)
    ∧ Ieee.binary32Arith.TwoSum (.fin (2049 / 2048)) (.fin (1 / 2 ^ 60))
        = (.fin (2049 / 2048), .fin (1 / 2 ^ 60))
    ∧ (Ieee.DotKernelCompensated.Update1 Ieee.binary32Arith ![.fin (4097 / 4096)]
          ![.fin (4097 / 4096)] ![.fin (1 / 2 ^ 60)] ![.fin 0]).1 (0 : Fin 1)
        = .fin (2049 / 2048)
    ∧ (Ieee.DotKernelCompensated.Update1 Ieee.binary32Arith ![.fin (4097 / 4096)]
          ![.fin (4097 / 4096)] ![.fin (1 / 2 ^ 60)] ![.fin 0]).2 (0 : Fin 1)
        = .fin (1 / 2 ^ 24)
    ∧ (2049 / 2048 + 1 / 2 ^ 24 : ℚ)
        = 1 / 2 ^ 60 + 0 + 4097 / 4096 * (4097 / 4096) - 1 / 2 ^ 60
    ∧ (2049 / 2048 + 1 / 2 ^ 24 : ℚ) ≠ 1 / 2 ^ 60 + 0 + 4097 / 4096 * (4097 / 4096) := by
  refine ⟨isF32_sample_input, isF32_sample_sum, isF32_zero, twoProduct_sample, by norm_num,
    twoSum_sample, ?_, ?_, by norm_num, by norm_num⟩
  · simp only [Ieee.DotKernelCompensated.Update1, Ieee.TwoProducts, Ieee.TwoSums,
      Matrix.cons_val_zero, twoProduct_sample, twoSum_sample]
  · simp only [Ieee.DotKernelCompensated.Update1, Ieee.TwoProducts, Ieee.TwoSums, Ieee.Add,
      Matrix.cons_val_zero, twoProduct_sample, twoSum_sample, add_residues_sample]
    exact add_zero_left _ isF32_sample_residue

/-- C9, amended: on a lane with finite data where `TwoProducts` returns `(prod, perr)` with
`prod + perr = w * v` exactly and `TwoSums` returns `(s, serr)` with
`s + serr = prod + sum0` exactly, one float `Update1` step gives `sum0' = s` and
`comp0' = comp0 + (perr + serr)` with both `hn::Add` rounded to binary32. When neither
addition overflows, `sum0' + comp0'` is `sum0 + comp0 + w0 * v0` minus the rounding errors
of these two additions; when `perr + serr` and `comp0 + (perr + serr)` are floats, the two
additions are exact and `sum0' + comp0' = sum0 + comp0 + w0 * v0`. -/
theorem C9_update1_up_to_rounding (A : Ieee.Arith) {N : ℕ} (w0 v0 sum0 comp0 : Ieee.VF N)
    (l : Fin N) (w v s c p pe s1 se : ℚ) (hw : w0 l = .fin w) (hv : v0 l = .fin v)
    (hs : sum0 l = .fin s) (hc : comp0 l = .fin c)
    (hP : A.TwoProduct (.fin w) (.fin v) = (.fin p, .fin pe)) (hPe : p + pe = w * v)
    (hS : A.TwoSum (.fin p) (.fin s) = (.fin s1, .fin se)) (hSe : s1 + se = p + s) :
    (Ieee.DotKernelCompensated.Update1 A w0 v0 sum0 comp0).1 l = .fin s1
    ∧ (Ieee.DotKernelCompensated.Update1 A w0 v0 sum0 comp0).2 l
        = Ieee.add binary32 (.fin c) (Ieee.add binary32 (.fin pe) (.fin se))
    ∧ (∀ t c1 : ℚ, Ieee.add binary32 (.fin pe) (.fin se) = .fin t →
        Ieee.add binary32 (.fin c) (.fin t) = .fin c1 →
        (Ieee.DotKernelCompensated.Update1 A w0 v0 sum0 comp0).2 l = .fin c1
        ∧ t = Ieee.roundFin binary32 (pe + se) ∧ c1 = Ieee.roundFin binary32 (c + t)
        ∧ s1 + c1 = s + c + w * v - ((pe + se - t) + (c + t - c1)))
    ∧ (IsF32 (pe + se) → IsF32 (c + (pe + se)) →
        (Ieee.DotKernelCompensated.Update1 A w0 v0 sum0 comp0).2 l = .fin (c + (pe + se))
        ∧ s1 + (c + (pe + se)) = s + c + w * v) := by
  obtain ⟨h1, h2⟩ := fp_update1_lane A w0 v0 sum0 comp0 l w v s c p pe s1 se hw hv hs hc hP hS
  refine ⟨h1, h2, ?_, ?_⟩
  · intro t c1 ht hc1
    refine ⟨by rw [h2, ht, hc1], round_eq_fin _ _ _ ht, round_eq_fin _ _ _ hc1, ?_⟩
    linarith
  · intro e1 e2
    have ht : Ieee.add binary32 (.fin pe) (.fin se) = .fin (pe + se) :=
      round_of_hasSignificand binary32 _ e1
    have hc1 : Ieee.add binary32 (.fin c) (.fin (pe + se)) = .fin (c + (pe + se)) :=
      round_of_hasSignificand binary32 _ e2
    refine ⟨by rw [h2, ht, hc1], ?_⟩
    linarith

/-- C9, amended, on one lane in binary32 with `w0 = v0 = 1 + 2^-12` and `sum0 = comp0 = 0`:
the product is split into `(1 + 2^-11) + 2^-24`, both additions into `comp0` are exact, and
the new pair `(1 + 2^-11, 2^-24)` stands for exactly the product. -/
theorem C9_update1_up_to_rounding_witness :
    (Ieee.DotKernelCompensated.Update1 Ieee.binary32Arith ![.fin (4097 / 4096)]
        ![.fin (4097 / 4096)] ![.fin 0] ![.fin 0]).1 (0 : Fin 1) = .fin (2049 / 2048)
    ∧ (Ieee.DotKernelCompensated.Update1 Ieee.binary32Arith ![.fin (4097 / 4096)]
        ![.fin (4097 / 4096)] ![.fin 0] ![.fin 0]).2 (0 : Fin 1) = .fin (0 + (1 / 2 ^ 24 + 0))
    ∧ (2049 / 2048 + (0 + (1 / 2 ^ 24 + 0)) : ℚ) = 0 + 0 + 4097 / 4096 * (4097 / 4096) := by
  have h := C9_update1_up_to_rounding Ieee.binary32Arith ![.fin (4097 / 4096)]
    ![.fin (4097 / 4096)] ![.fin 0] ![.fin 0] (0 : Fin 1) (4097 / 4096) (4097 / 4096) 0 0
    (2049 / 2048) (1 / 2 ^ 24) (2049 / 2048) 0 rfl rfl rfl rfl twoProduct_sample (by norm_num)
    twoSum_zero_sample (by norm_num)
  have e1 : IsF32 (1 / 2 ^ 24 + 0) := by rw [add_zero]; exact isF32_sample_residue
  have e2 : IsF32 (0 + (1 / 2 ^ 24 + 0)) := by rw [add_zero, zero_add]; exact isF32_sample_residue
  exact ⟨h.1, (h.2.2.2 e1 e2).1, (h.2.2.2 e1 e2).2⟩

/-- C10: `Update4` is four independent `Update1` steps, for float and for bf16 inputs:
accumulator pair `k` of the result is `Update1` applied to `w_k`, `v_k`, `sum_k`, `comp_k`
alone. -/
theorem C10_update4_four_update1 (A : FpArith) {N : ℕ} (w0 w1 w2 w3 v0 v1 v2 v3 : VF N)
    (b0 b1 b2 b3 c0 c1 c2 c3 : VBF N) (acc : Acc4 N) :
    DotKernelCompensated.Update4 A w0 w1 w2 w3 v0 v1 v2 v3 acc
      = { sum0 := (DotKernelCompensated.Update1 A w0 v0 acc.sum0 acc.comp0).1,
          sum1 := (DotKernelCompensated.Update1 A w1 v1 acc.sum1 acc.comp1).1,
          sum2 := (DotKernelCompensated.Update1 A w2 v2 acc.sum2 acc.comp2).1,
          sum3 := (DotKernelCompensated.Update1 A w3 v3 acc.sum3 acc.comp3).1,
          comp0 := (DotKernelCompensated.Update1 A w0 v0 acc.sum0 acc.comp0).2,
          comp1 := (DotKernelCompensated.Update1 A w1 v1 acc.sum1 acc.comp1).2,
          comp2 := (DotKernelCompensated.Update1 A w2 v2 acc.sum2 acc.comp2).2,
          comp3 := (DotKernelCompensated.Update1 A w3 v3 acc.sum3 acc.comp3).2 }
    ∧ DotKernelCompensated.Update4BF A b0 b1 b2 b3 c0 c1 c2 c3 acc
      = { sum0 := (DotKernelCompensated.Update1BF A b0 c0 acc.sum0 acc.comp0).1,
          sum1 := (DotKernelCompensated.Update1BF A b1 c1 acc.sum1 acc.comp1).1,
          sum2 := (DotKernelCompensated.Update1BF A b2 c2 acc.sum2 acc.comp2).1,
          sum3 := (DotKernelCompensated.Update1BF A b3 c3 acc.sum3 acc.comp3).1,
          comp0 := (DotKernelCompensated.Update1BF A b0 c0 acc.sum0 acc.comp0).2,
          comp1 := (DotKernelCompensated.Update1BF A b1 c1 acc.sum1 acc.comp1).2,
          comp2 := (DotKernelCompensated.Update1BF A b2 c2 acc.sum2 acc.comp2).2,
          comp3 := (DotKernelCompensated.Update1BF A b3 c3 acc.sum3 acc.comp3).2 } :=
  ⟨rfl, rfl⟩

/-- C11: `Reduce` merges accumulator 1 into 0, 3 into 2 and 2 into 0 and then reduces across
lanes once, adding the lane sums and the lane errors separately and combining them in the
last step; with an error-free two-sum (exact arithmetic is one such case) the returned
scalar is the sum over all lanes of `sum0 + sum1 + sum2 + sum3 + comp0 + comp1 + comp2 +
comp3`. -/
theorem C11_reduce_loses_nothing (A : FpArith) (hA : A.SumErrorFree) {N : ℕ} (acc : Acc4 N) :
    DotKernelCompensated.Reduce A acc
        = ∑ l : Fin N, (acc.sum0 l + acc.sum1 l + acc.sum2 l + acc.sum3 l
            + acc.comp0 l + acc.comp1 l + acc.comp2 l + acc.comp3 l)
    ∧ DotKernelCompensated.ReduceTree A acc
        = AssimilateCascadedSums A
            (AssimilateCascadedSums A acc.sum3 acc.comp3 acc.sum2 acc.comp2).1
            (AssimilateCascadedSums A acc.sum3 acc.comp3 acc.sum2 acc.comp2).2
            (AssimilateCascadedSums A acc.sum1 acc.comp1 acc.sum0 acc.comp0).1
            (AssimilateCascadedSums A acc.sum1 acc.comp1 acc.sum0 acc.comp0).2
    ∧ DotKernelCompensated.Reduce A acc
        = (∑ l : Fin N, (DotKernelCompensated.ReduceTree A acc).1 l)
          + ∑ l : Fin N, (DotKernelCompensated.ReduceTree A acc).2 l := by
  refine ⟨?_, rfl, rfl⟩
  simp only [DotKernelCompensated.Reduce, DotKernelCompensated.ReduceTree,
    reduce_assimilate A hA]
  simp only [ReduceCascadedSums, ReduceSum, Finset.sum_add_distrib]
  ring

/-- C11 on two lanes with the rounding arithmetic `floorArith`: the lane sums add up to
`32`, the lane errors to `4`, and `Reduce` returns `36`. -/
theorem C11_reduce_loses_nothing_witness :
    DotKernelCompensated.Reduce floorArith
      ({ sum0 := ![1 / 2, 3 / 2], sum1 := ![5 / 2, 7 / 2], sum2 := ![9 / 2, 11 / 2],
         sum3 := ![13 / 2, 15 / 2], comp0 := ![-1 / 4, 1 / 4], comp1 := ![1 / 3, -1 / 3],
         comp2 := ![1 / 8, -1 / 8], comp3 := ![2, 2] } : Acc4 2) = 36 := by
  have h := (C11_reduce_loses_nothing floorArith floorArith_sumErrorFree
    ({ sum0 := ![1 / 2, 3 / 2], sum1 := ![5 / 2, 7 / 2], sum2 := ![9 / 2, 11 / 2],
       sum3 := ![13 / 2, 15 / 2], comp0 := ![-1 / 4, 1 / 4], comp1 := ![1 / 3, -1 / 3],
       comp2 := ![1 / 8, -1 / 8], comp3 := ![2, 2] } : Acc4 2)).1
  rw [h]
  norm_num [Fin.sum_univ_two]

/-- C12: in both overloads of `ConditionNumber`, for every lane count `N ≥ 1` and every
`num` (`num` and `2 * N` being `size_t` values), the main loop ends with
`i = 2 * N * (num / (2 * N))`; the subtractions `num - 2 * N` (behind its guard) and
`num - i` do not wrap, and `remaining = num - i` is below `2 * N`, so the debug assertion
holds; when `remaining ≠ 0` the remainder loop runs its body once, at `padded_pos = 0`, if
`remaining ≤ N`, and twice, at `0` and `N`, otherwise; each load
`[padded_pos, padded_pos + N)` ends within the first `2 * N` elements of the padded
buffer. -/
theorem C12_remainder_indices (A : FpArith) (N : ℕ) (hN : 1 ≤ N) (hN2 : 2 * N < sizeMod)
    (w v : ℕ → ℚ) (num : ℕ) (hnum : num < sizeMod) :
    (∃ st : CondSums N,
      (if num ≥ mulSz 2 N then ConditionNumber.mainLoop A N w v num num 0 (CondSums.zero N)
        else some (0, CondSums.zero N)) = some (2 * N * (num / (2 * N)), st))
    ∧ (∃ st : CondSums N,
      (if num ≥ mulSz 2 N then ConditionNumber1.mainLoop A N v num num 0 (CondSums.zero N)
        else some (0, CondSums.zero N)) = some (2 * N * (num / (2 * N)), st))
    ∧ (num ≥ mulSz 2 N → 2 * N ≤ num ∧ subSz num (mulSz 2 N) = num - 2 * N)
    ∧ 2 * N * (num / (2 * N)) ≤ num
    ∧ subSz num (2 * N * (num / (2 * N))) = num - 2 * N * (num / (2 * N))
    ∧ subSz num (2 * N * (num / (2 * N))) < mulSz 2 N
    ∧ subSz num (2 * N * (num / (2 * N))) < 2 * N
    ∧ (∀ remaining : ℕ, remaining = subSz num (2 * N * (num / (2 * N))) → remaining ≠ 0 →
        ConditionNumber.tailIndices N remaining remaining 0
            = some (if remaining ≤ N then [0] else [0, N])
        ∧ (∀ (padded_w padded_v : ℕ → ℚ) (st : CondSums N),
            ConditionNumber.tailLoop A N padded_w padded_v remaining remaining 0 st
              = some (if remaining ≤ N then
                    ConditionNumber.tailStep A N padded_w padded_v 0 st
                  else ConditionNumber.tailStep A N padded_w padded_v N
                    (ConditionNumber.tailStep A N padded_w padded_v 0 st)))
        ∧ (∀ (padded_v : ℕ → ℚ) (st : CondSums N),
            ConditionNumber1.tailLoop A N padded_v remaining remaining 0 st
              = some (if remaining ≤ N then ConditionNumber1.tailStep A N padded_v 0 st
                  else ConditionNumber1.tailStep A N padded_v N
                    (ConditionNumber1.tailStep A N padded_v 0 st)))
        ∧ ∀ padded_pos ∈ (if remaining ≤ N then [0] else [0, N]), padded_pos + N ≤ 2 * N) := by
  have hB : 0 < 2 * N := by omega
  obtain ⟨hle, hsub, hmod⟩ := remaining_eq_mod N num hnum
  have hlt : num - 2 * N * (num / (2 * N)) < 2 * N := by
    rw [hmod]; exact Nat.mod_lt _ hB
  have hidx := guarded_mainIndices N num hN hN2 hnum
  refine ⟨?_, ?_, ?_, hle, hsub, ?_, ?_, ?_⟩
  · by_cases hg : num ≥ mulSz 2 N
    · rw [if_pos hg] at hidx ⊢
      rw [mainLoop_eq_indices, hidx]
      exact ⟨_, rfl⟩
    · rw [if_neg hg] at hidx ⊢
      simp only [Option.some.injEq, Prod.mk.injEq] at hidx
      rw [← hidx.2]
      exact ⟨_, rfl⟩
  · by_cases hg : num ≥ mulSz 2 N
    · rw [if_pos hg] at hidx ⊢
      rw [mainLoop1_eq_indices, hidx]
      exact ⟨_, rfl⟩
    · rw [if_neg hg] at hidx ⊢
      simp only [Option.some.injEq, Prod.mk.injEq] at hidx
      rw [← hidx.2]
      exact ⟨_, rfl⟩
  · intro hg
    rw [mulSz_two N hN2] at hg ⊢
    exact ⟨hg, subSz_of_le num (2 * N) hg hnum⟩
  · rw [hsub, mulSz_two N hN2]; exact hlt
  · rw [hsub]; exact hlt
  · intro remaining hrem h0
    have h2 : remaining < 2 * N := by rw [hrem, hsub]; exact hlt
    have hi := tailIndices_run N hN2 remaining h0 h2
    refine ⟨hi, ?_, ?_, ?_⟩
    · intro padded_w padded_v st
      exact tailLoop_run A N hN2 padded_w padded_v remaining h0 h2 st
    · intro padded_v st
      rw [tailLoop1_eq_indices, hi]
      by_cases hr : remaining ≤ N <;> simp [hr]
    · intro p hp
      by_cases hr : remaining ≤ N
      · rw [if_pos hr] at hp
        simp only [List.mem_singleton] at hp
        omega
      · rw [if_neg hr] at hp
        simp only [List.mem_cons, List.mem_singleton, List.not_mem_nil, or_false] at hp
        omega

/-- C12 at `num = 7` on two lanes: the main loop ends at `i = 4`, `remaining = 3` exceeds
one vector, and the remainder loop runs at positions `0` and `2`. -/
theorem C12_remainder_indices_witness :
    (∃ st : CondSums 2,
      (if 7 ≥ mulSz 2 2 then ConditionNumber.mainLoop floorArith 2 wEx vEx 7 7 0 (CondSums.zero 2)
        else some (0, CondSums.zero 2)) = some (4, st))
    ∧ subSz 7 4 = 3
    ∧ ConditionNumber.tailIndices 2 3 3 0 = some [0, 2] := by
  have h := C12_remainder_indices floorArith 2 (by decide) (by decide) wEx vEx 7 (by decide)
  obtain ⟨h1, _, _, _, h5, _, _, h8⟩ := h
  have e : 2 * 2 * (7 / (2 * 2)) = 4 := by decide
  rw [e] at h1 h5 h8
  refine ⟨h1, h5, ?_⟩
  have h9 := (h8 3 (by rw [h5]) (by decide)).1
  simpa using h9
/-- C16: under `size_t` wrap-around semantics, for every `num` representable in `size_t` and
every lane count `N ≥ 1` (with `2 * N` representable), the guard `num >= 2 * N` makes
`num - 2 * N` non-wrapping; behind the guard the main loop of either overload terminates
for every fuel of at least `num / (2 * N)` (the source's `num` is enough), running its body
exactly `num / (2 * N)` times, at the indices `0, 2 * N, 4 * N, ...`; at each of them
`i + 2 * N ≤ num`, so the increment does not overflow; the loop exits at
`i = 2 * N * (num / (2 * N))`. -/
theorem C16_main_loop_terminates (A : FpArith) (N : ℕ) (hN : 1 ≤ N) (hN2 : 2 * N < sizeMod)
    (w v : ℕ → ℚ) (num : ℕ) (hnum : num < sizeMod) :
    (num ≥ mulSz 2 N ↔ 2 * N ≤ num)
    ∧ (num ≥ mulSz 2 N → subSz num (mulSz 2 N) = num - 2 * N)
    ∧ num / (2 * N) ≤ num
    ∧ (num ≥ mulSz 2 N → ∀ fuel : ℕ, num / (2 * N) ≤ fuel →
        ConditionNumber.mainIndices N num fuel 0
            = some ((List.range (num / (2 * N))).map (fun k => k * (2 * N)),
                2 * N * (num / (2 * N)))
        ∧ (∀ st : CondSums N, ConditionNumber.mainLoop A N w v num fuel 0 st
            = some (2 * N * (num / (2 * N)),
                ((List.range (num / (2 * N))).map (fun k => k * (2 * N))).foldl
                  (fun s k => ConditionNumber.block A N w v k s) st))
        ∧ (∀ st : CondSums N, ConditionNumber1.mainLoop A N v num fuel 0 st
            = some (2 * N * (num / (2 * N)),
                ((List.range (num / (2 * N))).map (fun k => k * (2 * N))).foldl
                  (fun s k => ConditionNumber1.block A N v k s) st)))
    ∧ ((List.range (num / (2 * N))).map (fun k => k * (2 * N))).length = num / (2 * N)
    ∧ (∀ i ∈ (List.range (num / (2 * N))).map (fun k => k * (2 * N)),
        i ≤ subSz num (mulSz 2 N) ∧ i + 2 * N ≤ num ∧ addSz i (mulSz 2 N) = i + 2 * N)
    ∧ ¬ (2 * N * (num / (2 * N)) ≤ num - 2 * N ∧ 2 * N ≤ num) := by
  have hB : 0 < 2 * N := by omega
  have hm := mulSz_two N hN2
  have hdm := Nat.div_add_mod num (2 * N)
  have hml := Nat.mod_lt num hB
  refine ⟨by rw [hm], ?_, Nat.div_le_self _ _, ?_, by simp, ?_, by omega⟩
  · intro hg
    rw [hm] at hg ⊢
    exact subSz_of_le num (2 * N) hg hnum
  · intro hg fuel hf
    rw [hm] at hg
    have hi := mainIndices_zero N num hN hN2 hnum hg fuel hf
    refine ⟨hi, ?_, ?_⟩
    · intro st
      rw [mainLoop_eq_indices, hi]
      rfl
    · intro st
      rw [mainLoop1_eq_indices, hi]
      rfl
  · intro i hi
    simp only [List.mem_map, List.mem_range] at hi
    obtain ⟨k, hk, rfl⟩ := hi
    have h1 : (k + 1) * (2 * N) ≤ num / (2 * N) * (2 * N) :=
      Nat.mul_le_mul_right _ hk
    have h2 : num / (2 * N) * (2 * N) ≤ num := Nat.div_mul_le_self _ _
    have h3 : (k + 1) * (2 * N) = k * (2 * N) + 2 * N := by ring
    have hle : k * (2 * N) + 2 * N ≤ num := by omega
    refine ⟨?_, hle, ?_⟩
    · rw [hm, subSz_of_le num (2 * N) (by omega) hnum]; omega
    · rw [hm]; exact addSz_of_lt _ _ (by omega)

/-- C16 at `num = 9` on two lanes: two iterations, at `i = 0` and `i = 4`, exit at
`i = 8`. -/
theorem C16_main_loop_terminates_witness :
    ConditionNumber.mainIndices 2 9 9 0 = some ([0, 4], 8)
    ∧ (∃ st : CondSums 2,
        ConditionNumber.mainLoop floorArith 2 wEx vEx 9 9 0 (CondSums.zero 2) = some (8, st)) := by
  have h := C16_main_loop_terminates floorArith 2 (by decide) (by decide) wEx vEx 9 (by decide)
  obtain ⟨_, _, _, h4, _⟩ := h
  obtain ⟨h5, h6, _⟩ := h4 (by decide) 9 (by decide)
  have e : (9 : ℕ) / (2 * 2) = 2 := by decide
  rw [e] at h5 h6
  refine ⟨?_, ⟨_, h6 (CondSums.zero 2)⟩⟩
  rw [h5]
  decide

/-- C13: the single-vector overload is the two-vector one with the product skipped: for
every `v` and `num`, `ConditionNumber(v, num)` equals `ConditionNumber(ones, v, num)` for
the pointer `ones` to ones throughout (any arithmetic, any lane count), and, with at least
one lane and representable sizes, for every `ones` whose first `num` values are one. -/
theorem C13_single_vector_is_ones (A : FpArith) (N : ℕ) (v : ℕ → ℚ) (num : ℕ) :
    ConditionNumber1 A N v num = ConditionNumber A N (fun _ => 1) v num
    ∧ ConditionNumber1.accumulate A N v num = ConditionNumber.accumulate A N (fun _ => 1) v num
    ∧ (1 ≤ N → 2 * N < sizeMod → num < sizeMod →
        ∀ ones : ℕ → ℚ, (∀ k, k < num → ones k = 1) →
          ConditionNumber1 A N v num = ConditionNumber A N ones v num) := by
  refine ⟨ConditionNumber1_eq_ones A N v num, accumulate1_eq_ones A N v num, ?_⟩
  intro hN hN2 hnum ones hones
  rw [ConditionNumber1_eq_ones]
  simp only [ConditionNumber]
  rw [accumulate_congr A N hN hN2 (fun _ => 1) v ones v num hnum
    (fun k hk => ⟨(hones k hk).symm, rfl⟩)]

/-- C13 at five elements on two lanes, with a weight array holding exactly five ones. -/
theorem C13_single_vector_is_ones_witness :
    ConditionNumber1 floorArith 2 vEx 5
      = ConditionNumber floorArith 2 (ofList [1, 1, 1, 1, 1]) vEx 5 :=
  (C13_single_vector_is_ones floorArith 2 vEx 5).2.2 (by decide) (by decide) (by decide)
    (ofList [1, 1, 1, 1, 1]) (by
      intro k hk
      have hk5 : k = 0 ∨ k = 1 ∨ k = 2 ∨ k = 3 ∨ k = 4 := by omega
      rcases hk5 with h | h | h | h | h <;> subst h <;> simp [ofList])

/-- C15: for `num = 0` and any `w`, `v` (any arithmetic; at least one lane, `2 * N` a
`size_t` value), both overloads of `ConditionNumber` skip the main loop (the guard
`num >= 2 * N` is false) and the remainder loop (`remaining = 0`), leave the accumulators at
zero, whose reduced sum is exactly zero, raise no error and return `+infinity`. -/
theorem C15_zero_length_is_infinity (A : FpArith) (N : ℕ) (hN : 1 ≤ N) (hN2 : 2 * N < sizeMod)
    (w v : ℕ → ℚ) :
    ¬ (0 ≥ mulSz 2 N)
    ∧ subSz 0 0 = 0
    ∧ ConditionNumber.accumulate A N w v 0 = .ok (CondSums.zero N)
    ∧ ConditionNumber1.accumulate A N v 0 = .ok (CondSums.zero N)
    ∧ ReduceCascadedSums (CondSums.zero N).sum (CondSums.zero N).sum_err = 0
    ∧ ConditionNumber A N w v 0 = .ok ⊤
    ∧ ConditionNumber1 A N v 0 = .ok ⊤ := by
  have hacc : ∀ w : ℕ → ℚ, ConditionNumber.accumulate A N w v 0 = .ok (CondSums.zero N) :=
    fun w => accumulate_zero_length A N hN hN2 w v
  have hcn : ∀ w : ℕ → ℚ, ConditionNumber A N w v 0 = .ok ⊤ := by
    intro w
    simp only [ConditionNumber, hacc w, reduce_zero]
    exact finish_zero _
  refine ⟨?_, by decide, hacc w, ?_, reduce_zero N, hcn w, ?_⟩
  · rw [mulSz_two N hN2]; omega
  · rw [accumulate1_eq_ones]; exact hacc _
  · rw [ConditionNumber1_eq_ones]; exact hcn _

/-- C15 on two lanes with the rounding arithmetic `floorArith`. -/
theorem C15_zero_length_is_infinity_witness :
    ConditionNumber floorArith 2 wEx vEx 0 = .ok ⊤
    ∧ ConditionNumber1 floorArith 2 vEx 0 = .ok ⊤ :=
  ⟨(C15_zero_length_is_infinity floorArith 2 (by decide) (by decide) wEx vEx).2.2.2.2.2.1,
    (C15_zero_length_is_infinity floorArith 2 (by decide) (by decide) wEx vEx).2.2.2.2.2.2⟩

/-- C14 fails as stated, in two ways. For the bf16 pair `w0 = (2^15, 1)`, `v0 = (2^15, 1)`
the exact value `w_even * v_even + w_odd * v_odd = 2^30 + 1` has 31 significant bits, so no
`float` lane equals it: whatever `WidenMulPairwiseAdd` returns in its `float` lanes,
`prod0` differs from the exact pair sum at this input, and with an error-free two-sum the
total after the bf16 `Update1` (from `sum0 = comp0 = 0`) differs from the exact pair sum;
in binary32 with round to nearest even, `prod0` is `2^30` and the bf16 `Update1` returns
`(2^30, 0)`. For the bf16 pair `w0 = v0 = (2^-15, 0)` with `sum0 = comp0 = 1` the pair sum
`2^-30` is exact and the two-sum returns `(1, 2^-30)`, but `hn::Add(comp0, serr0)` rounds
`1 + 2^-30` to `1`: the new pair is `(1, 1)`, which is `2^-30` short of
`sum0 + comp0 + 2^-30`. -/
theorem C14_counterexample :
    (∀ j : Fin (2 * 1), IsBF16 ((![32768, 1] : VBF 1) j))
    ∧ pairSum (![32768, 1] : VBF 1) (![32768, 1] : VBF 1) (0 : Fin 1) = 1073741825
    ∧ ¬ IsF32 (pairSum (![32768, 1] : VBF 1) (![32768, 1] : VBF 1) (0 : Fin 1))
    ∧ (¬ ∃ A : FpArith,
        (∀ (N : ℕ) (w v : VBF N) (l : Fin N), IsF32 (A.WidenMulPairwiseAdd N w v l))
        ∧ A.WidenMulPairwiseAdd 1 (![32768, 1] : VBF 1) (![32768, 1] : VBF 1) (0 : Fin 1)
            = pairSum (![32768, 1] : VBF 1) (![32768, 1] : VBF 1) (0 : Fin 1))
    ∧ (¬ ∃ A : FpArith,
        (∀ (N : ℕ) (w v : VBF N) (l : Fin N), IsF32 (A.WidenMulPairwiseAdd N w v l))
        ∧ A.SumErrorFree
        ∧ (DotKernelCompensated.Update1BF A (![32768, 1] : VBF 1) (![32768, 1] : VBF 1)
              (Zero 1) (Zero 1)).1 (0 : Fin 1)
            + (DotKernelCompensated.Update1BF A (![32768, 1] : VBF 1) (![32768, 1] : VBF 1)
              (Zero 1) (Zero 1)).2 (0 : Fin 1)
            = Zero 1 (0 : Fin 1) + Zero 1 (0 : Fin 1)
              + pairSum (![32768, 1] : VBF 1) (![32768, 1] : VBF 1) (0 : Fin 1))
    ∧ Ieee.binary32Arith.WidenMulPairwiseAdd 1 (![.fin 32768, .fin 1] : Ieee.VBF 1)
        (![.fin 32768, .fin 1] : Ieee.VBF 1) (0 : Fin 1) = .fin 1073741824
    ∧ (Ieee.DotKernelCompensated.Update1BF Ieee.binary32Arith
        (![.fin 32768, .fin 1] : Ieee.VBF 1) (![.fin 32768, .fin 1] : Ieee.VBF 1)
        ![.fin 0] ![.fin 0]).1 (0 : Fin 1) = .fin 1073741824
    ∧ (Ieee.DotKernelCompensated.Update1BF Ieee.binary32Arith
        (![.fin 32768, .fin 1] : Ieee.VBF 1) (![.fin 32768, .fin 1] : Ieee.VBF 1)
        ![.fin 0] ![.fin 0]).2 (0 : Fin 1) = .fin 0
    ∧ IsBF16 (1 / 2 ^ 15) ∧ IsBF16 0
    ∧ Ieee.binary32Arith.WidenMulPairwiseAdd 1 (![.fin (1 / 2 ^ 15), .fin 0] : Ieee.VBF 1)
        (![.fin (1 / 2 ^ 15), .fin 0] : Ieee.VBF 1) (0 : Fin 1) = .fin (1 / 2 ^ 30)
    ∧ (1 / 2 ^ 30 : ℚ) = 1 / 2 ^ 15 * (1 / 2 ^ 15) + 0 * 0
    ∧ Ieee.binary32Arith.TwoSum (.fin (1 / 2 ^ 30)) (.fin 1) = (.fin 1, .fin (1 / 2 ^ 30))
    ∧ (Ieee.DotKernelCompensated.Update1BF Ieee.binary32Arith
        (![.fin (1 / 2 ^ 15), .fin 0] : Ieee.VBF 1) (![.fin (1 / 2 ^ 15), .fin 0] : Ieee.VBF 1)
        ![.fin 1] ![.fin 1]).1 (0 : Fin 1) = .fin 1
    ∧ (Ieee.DotKernelCompensated.Update1BF Ieee.binary32Arith
        (![.fin (1 / 2 ^ 15), .fin 0] : Ieee.VBF 1) (![.fin (1 / 2 ^ 15), .fin 0] : Ieee.VBF 1)
        ![.fin 1] ![.fin 1]).2 (0 : Fin 1) = .fin 1
    ∧ (1 + 1 : ℚ) ≠ 1 + 1 + (1 / 2 ^ 15 * (1 / 2 ^ 15) + 0 * 0) := by
  have hp : pairSum (![32768, 1] : VBF 1) (![32768, 1] : VBF 1) (0 : Fin 1) = 1073741825 := by
    simp only [pairSum]
    norm_num
  have hrun := fp_update1BF_lane Ieee.binary32Arith (![.fin 32768, .fin 1] : Ieee.VBF 1)
    (![.fin 32768, .fin 1] : Ieee.VBF 1) ![.fin 0] ![.fin 0] (0 : Fin 1) 0 0 1073741824
    1073741824 0 rfl rfl widenMul_sample twoSum_pow_sample
  have hrun2 := fp_update1BF_lane Ieee.binary32Arith
    (![.fin (1 / 2 ^ 15), .fin 0] : Ieee.VBF 1) (![.fin (1 / 2 ^ 15), .fin 0] : Ieee.VBF 1)
    ![.fin 1] ![.fin 1] (0 : Fin 1) 1 1 (1 / 2 ^ 30) 1 (1 / 2 ^ 30) rfl rfl
    widenMul_small_sample twoSum_small_sample
  refine ⟨?_, hp, ?_, ?_, ?_, widenMul_sample, hrun.1, ?_, isBF16_two_pow_neg_fifteen,
    isBF16_zero, widenMul_small_sample, by norm_num, twoSum_small_sample, hrun2.1, ?_,
    by norm_num⟩
  · intro j
    have hj : j = 0 ∨ j = 1 := by
      rcases j with ⟨j, hj⟩
      have : j = 0 ∨ j = 1 := by omega
      rcases this with h | h <;> subst h
      · left; rfl
      · right; rfl
    rcases hj with h | h <;> subst h
    · exact isBF16_two_pow_fifteen
    · exact isBF16_one
  · rw [hp]; exact not_isF32_two_pow_thirty_add_one
  · rintro ⟨A, hA, he⟩
    have h := hA 1 (![32768, 1] : VBF 1) (![32768, 1] : VBF 1) 0
    rw [he, hp] at h
    exact not_isF32_two_pow_thirty_add_one h
  · rintro ⟨A, hA, hS, he⟩
    have h := hA 1 (![32768, 1] : VBF 1) (![32768, 1] : VBF 1) 0
    have ht := update1BF_total A hS (![32768, 1] : VBF 1) (![32768, 1] : VBF 1)
      (Zero 1) (Zero 1) 0
    rw [ht] at he
    have he2 : A.WidenMulPairwiseAdd 1 (![32768, 1] : VBF 1) (![32768, 1] : VBF 1) 0
        = 1073741825 := by
      rw [← hp]
      linarith
    rw [he2] at h
    exact not_isF32_two_pow_thirty_add_one h
  · rw [hrun.2]
    exact add_zero_zero
  · rw [hrun2.2]
    exact add_small_sample

/-- C14, amended: the product of two bf16 values is exactly a `float` when it neither
overflows nor underflows binary32, so a widened product has no rounding error to track;
the pair sum is in general rounded by `WidenMulPairwiseAdd`. On a lane with finite data
where `WidenMulPairwiseAdd` returns `prod0` and `TwoSums` returns `(s, serr0)` with
`s + serr0 = prod0 + sum0` exactly, the bf16 `Update1` gives `sum0' = s` and
`comp0' = comp0 + serr0` rounded to binary32 (`comp0` is updated by `serr0` only). When
that addition does not overflow, `sum0' + comp0'` is `sum0 + comp0 + prod0` minus its
rounding error; when `comp0 + serr0` is a float the addition is exact and
`sum0' + comp0' = sum0 + comp0 + prod0`, which is
`sum0 + comp0 + (w_even * v_even + w_odd * v_odd)` in a lane where `prod0` is the exact pair
sum. -/
theorem C14_bf16_update1 (A : Ieee.Arith) {N : ℕ} (w0 v0 : Ieee.VBF N)
    (sum0 comp0 : Ieee.VF N) (l : Fin N) (s c p s1 se : ℚ) (hs : sum0 l = .fin s)
    (hc : comp0 l = .fin c) (hW : A.WidenMulPairwiseAdd N w0 v0 l = .fin p)
    (hS : A.TwoSum (.fin p) (.fin s) = (.fin s1, .fin se)) (hSe : s1 + se = p + s) :
    (∀ a b : ℚ, IsBF16 a → IsBF16 b → |a * b| < 2 ^ 128 →
        (a * b = 0 ∨ (2 : ℚ) ^ (-126 : ℤ) ≤ |a * b|) → IsF32 (a * b))
    ∧ (Ieee.DotKernelCompensated.Update1BF A w0 v0 sum0 comp0).1 l = .fin s1
    ∧ (Ieee.DotKernelCompensated.Update1BF A w0 v0 sum0 comp0).2 l
        = Ieee.add binary32 (.fin c) (.fin se)
    ∧ (∀ c1 : ℚ, Ieee.add binary32 (.fin c) (.fin se) = .fin c1 →
        (Ieee.DotKernelCompensated.Update1BF A w0 v0 sum0 comp0).2 l = .fin c1
        ∧ c1 = Ieee.roundFin binary32 (c + se)
        ∧ s1 + c1 = s + c + p - (c + se - c1))
    ∧ (IsF32 (c + se) →
        (Ieee.DotKernelCompensated.Update1BF A w0 v0 sum0 comp0).2 l = .fin (c + se)
        ∧ s1 + (c + se) = s + c + p
        ∧ ∀ we ve wo vo : ℚ, w0 ⟨2 * l.val, by omega⟩ = .fin we →
            v0 ⟨2 * l.val, by omega⟩ = .fin ve → w0 ⟨2 * l.val + 1, by omega⟩ = .fin wo →
            v0 ⟨2 * l.val + 1, by omega⟩ = .fin vo → p = we * ve + wo * vo →
            s1 + (c + se) = s + c + (we * ve + wo * vo)) := by
  obtain ⟨h1, h2⟩ := fp_update1BF_lane A w0 v0 sum0 comp0 l s c p s1 se hs hc hW hS
  refine ⟨isF32_mul_of_isBF16, h1, h2, ?_, ?_⟩
  · intro c1 hc1
    refine ⟨by rw [h2, hc1], round_eq_fin _ _ _ hc1, ?_⟩
    linarith
  · intro e1
    have hc1 : Ieee.add binary32 (.fin c) (.fin se) = .fin (c + se) :=
      round_of_hasSignificand binary32 _ e1
    refine ⟨by rw [h2, hc1], by linarith, ?_⟩
    intro we ve wo vo _ _ _ _ hp
    rw [← hp]
    linarith

/-- C14, amended, on one float lane in binary32: the pair sum `3/2 * 1/2 + 1 * 1 = 7/4` is
exact, the two-sum with `sum0 = 1/2` gives `(9/4, 0)`, and `comp0 = 1/4` is unchanged: the
total `1/2 + 1/4` grows by exactly `7/4`. -/
theorem C14_bf16_update1_witness :
    (Ieee.DotKernelCompensated.Update1BF Ieee.binary32Arith
        (![.fin (3 / 2), .fin 1] : Ieee.VBF 1) (![.fin (1 / 2), .fin 1] : Ieee.VBF 1)
        ![.fin (1 / 2)] ![.fin (1 / 4)]).1 (0 : Fin 1) = .fin (9 / 4)
    ∧ (Ieee.DotKernelCompensated.Update1BF Ieee.binary32Arith
        (![.fin (3 / 2), .fin 1] : Ieee.VBF 1) (![.fin (1 / 2), .fin 1] : Ieee.VBF 1)
        ![.fin (1 / 2)] ![.fin (1 / 4)]).2 (0 : Fin 1) = .fin (1 / 4 + 0)
    ∧ (9 / 4 + (1 / 4 + 0) : ℚ) = 1 / 2 + 1 / 4 + (3 / 2 * (1 / 2) + 1 * 1) := by
  have h := C14_bf16_update1 Ieee.binary32Arith (![.fin (3 / 2), .fin 1] : Ieee.VBF 1)
    (![.fin (1 / 2), .fin 1] : Ieee.VBF 1) ![.fin (1 / 2)] ![.fin (1 / 4)] (0 : Fin 1)
    (1 / 2) (1 / 4) (7 / 4) (9 / 4) 0 rfl rfl widenMul_exact_sample twoSum_exact_sample
    (by norm_num)
  have e1 : IsF32 (1 / 4 + 0) := by rw [add_zero]; exact isF32_quarter
  exact ⟨h.2.1, (h.2.2.2.2 e1).1,
    (h.2.2.2.2 e1).2.2 (3 / 2) (1 / 2) 1 1 rfl rfl rfl rfl (by norm_num)⟩

end Gemma
